import Mathlib

/-!
# gatools::vector — shallow embedding of `include/vector.hpp`

The container is a triple of fields (`mData`, `mLength`, `mCapacity`) next to a
heap of storage blocks.  `mData` is the address of a block obtained from
`new T[n]`; `delete[]` marks a block as released.  Every access to a released
block, to an address that was never allocated, or past the end of a block is
undefined behaviour in C++ and is reported here as a `Fault`.

`size_type` is `unsigned int`: its arithmetic is taken modulo `2 ^ 32`.
Recursive calls and the shift loop of `insert` are driven by a fuel counter;
running out of fuel is reported as `Fault.outOfFuel`.

A parameter of type `const T&` or `T&&` of `push_back` and `insert` is a `Ref`:
the object it is bound to is read when the body assigns from it, in the heap
as it is at that moment.
-/

namespace gatools

/-- Number of values of `size_type` (`typedef unsigned int size_type`). -/
def SIZE_MOD : Nat := 4294967296

/-- The constant `DEFAULT_CAPACITY` of `vector.hpp`. -/
def DEFAULT_CAPACITY : Nat := 1

/-- Ways in which a run leaves defined behaviour, plus fuel exhaustion. -/
inductive Fault where
  | invalidPointer
  | useAfterFree
  | outOfBounds
  | outOfFuel
  deriving DecidableEq, Repr

/-- Outcome of an operation: a value, or the fault that stopped it. -/
inductive Res (α : Type) where
  | ok (a : α)
  | fault (f : Fault)
  deriving DecidableEq, Repr

/-- One storage block created by `new T[n]`.  A slot is `none` until a value
has been assigned to it; `live` turns `false` at `delete[]`. -/
structure Block (T : Type) where
  slots : List (Option T)
  live : Bool
  deriving DecidableEq, Repr

/-- The heap: block addresses are positions in the list. -/
abbrev Heap (T : Type) := List (Block T)

/-- The data members of `gatools::vector<T>`. -/
structure vector where
  mData : Nat
  mLength : Nat
  mCapacity : Nat
  deriving DecidableEq, Repr

variable {T : Type}

/-- Expression `new T[n]`: a fresh live block of `n` unassigned slots. -/
def Heap.alloc (h : Heap T) (n : Nat) : Heap T × Nat :=
  (h ++ [⟨List.replicate n none, true⟩], h.length)

/-- Statement `delete [] p`. -/
def Heap.free (h : Heap T) (p : Nat) : Res (Heap T) :=
  match h[p]? with
  | none => .fault .invalidPointer
  | some b =>
    if b.live then .ok (h.set p ⟨b.slots, false⟩) else .fault .useAfterFree

/-- Read of `p[i]`. -/
def Heap.read (h : Heap T) (p i : Nat) : Res (Option T) :=
  match h[p]? with
  | none => .fault .invalidPointer
  | some b =>
    if b.live then
      match b.slots[i]? with
      | none => .fault .outOfBounds
      | some x => .ok x
    else .fault .useAfterFree

/-- Assignment `p[i] = x`. -/
def Heap.write (h : Heap T) (p i : Nat) (x : Option T) : Res (Heap T) :=
  match h[p]? with
  | none => .fault .invalidPointer
  | some b =>
    if b.live then
      if i < b.slots.length then .ok (h.set p ⟨b.slots.set i x, b.live⟩)
      else .fault .outOfBounds
    else .fault .useAfterFree

/-- Call `memcpy(dst, src, sizeof(T) * n)`: the first `n` slots of `src`
replace the first `n` slots of `dst`. -/
def Heap.memcpy (h : Heap T) (dst src n : Nat) : Res (Heap T) :=
  match h[dst]?, h[src]? with
  | some d, some s =>
    if d.live && s.live then
      if n ≤ d.slots.length ∧ n ≤ s.slots.length then
        .ok (h.set dst ⟨s.slots.take n ++ d.slots.drop n, d.live⟩)
      else .fault .outOfBounds
    else .fault .useAfterFree
  | _, _ => .fault .invalidPointer

/-- The object a `const T&` / `T&&` argument is bound to: an object that is not
in the heap (a local variable or a temporary) holding `x`, or slot `i` of the
heap block `p` (an element such as `v[i]`). -/
inductive Ref (T : Type) where
  | val (x : T)
  | slot (p i : Nat)
  deriving DecidableEq, Repr

/-- Read of the object a reference is bound to. -/
def Heap.deref (h : Heap T) : Ref T → Res (Option T)
  | .val x => .ok (some x)
  | .slot p i => h.read p i

/-- Loop `for (i = 0; i < mLength; ++i) dst[i] = src[i];` of the copy
constructor and of copy assignment, with `k` iterations still to run from
index `i`. -/
def copyLoop (dst src : Nat) : Nat → Nat → Heap T → Res (Heap T)
  | 0, _, h => .ok h
  | k + 1, i, h =>
    match h.read src i with
    | .fault f => .fault f
    | .ok x =>
      match h.write dst i x with
      | .fault f => .fault f
      | .ok h1 => copyLoop dst src k (i + 1) h1

/-- Loop `for (i = 0; i < mLength; ++i) mData[i] = aValue;` of the count
constructor, with `k` iterations still to run from index `i`. -/
def fillLoop (dst : Nat) (aValue : T) : Nat → Nat → Heap T → Res (Heap T)
  | 0, _, h => .ok h
  | k + 1, i, h =>
    match h.write dst i (some aValue) with
    | .fault f => .fault f
    | .ok h1 => fillLoop dst aValue k (i + 1) h1

/-- Call `std::copy(aInit.begin(), aInit.end(), mData)`: the values of the
list are assigned to the slots from index `i` on, in list order. -/
def stdCopy (dst : Nat) : List T → Nat → Heap T → Res (Heap T)
  | [], _, h => .ok h
  | x :: xs, i, h =>
    match h.write dst i (some x) with
    | .fault f => .fault f
    | .ok h1 => stdCopy dst xs (i + 1) h1

/-- Default constructor `vector()`. -/
def vector.ctor_default (h : Heap T) : Heap T × vector :=
  ((h.alloc DEFAULT_CAPACITY).1,
    { mData := (h.alloc DEFAULT_CAPACITY).2, mLength := 0, mCapacity := DEFAULT_CAPACITY })

/-- Copy constructor `vector(const vector<T>& aOther)`. -/
def vector.ctor_copy (h : Heap T) (aOther : vector) : Res (Heap T × vector) :=
  match copyLoop (h.alloc aOther.mCapacity).2 aOther.mData aOther.mLength 0
      (h.alloc aOther.mCapacity).1 with
  | .fault f => .fault f
  | .ok h1 =>
    .ok (h1, { mData := (h.alloc aOther.mCapacity).2, mLength := aOther.mLength,
               mCapacity := aOther.mCapacity })

/-- Move constructor `vector(vector<T>&& aOther)`: returns the heap, the new
object and the moved-from `aOther`. -/
def vector.ctor_move (h : Heap T) (aOther : vector) : Heap T × vector × vector :=
  ((h.alloc DEFAULT_CAPACITY).1,
    { mData := aOther.mData, mLength := aOther.mLength, mCapacity := aOther.mCapacity },
    { mData := (h.alloc DEFAULT_CAPACITY).2, mLength := 0, mCapacity := DEFAULT_CAPACITY })

/-- Constructor `vector(size_type aCount, const T& aValue)`.  The body writes
only to the block it has just allocated and releases nothing, so the object
`aValue` is bound to keeps its value throughout the call: it is passed as that
value. -/
def vector.ctor_count (h : Heap T) (aCount : Nat) (aValue : T) : Res (Heap T × vector) :=
  match fillLoop (h.alloc aCount).2 aValue aCount 0 (h.alloc aCount).1 with
  | .fault f => .fault f
  | .ok h1 => .ok (h1, { mData := (h.alloc aCount).2, mLength := aCount, mCapacity := aCount })

/-- Constructor `vector(std::initializer_list<T> aInit)`; `aInit.size()` is
narrowed to `size_type`. -/
def vector.ctor_init_list (h : Heap T) (aInit : List T) : Res (Heap T × vector) :=
  match stdCopy (h.alloc (aInit.length % SIZE_MOD)).2 aInit 0
      (h.alloc (aInit.length % SIZE_MOD)).1 with
  | .fault f => .fault f
  | .ok h1 =>
    .ok (h1, { mData := (h.alloc (aInit.length % SIZE_MOD)).2,
               mLength := aInit.length % SIZE_MOD, mCapacity := aInit.length % SIZE_MOD })

/-- Copy assignment `operator = (const vector& aOther)`; `thisAddr` and
`otherAddr` are the addresses compared by `this != &aOther`.  The body
releases `mData` and then assigns through the same pointer. -/
def vector.assign_copy (h : Heap T) (thisAddr otherAddr : Nat) (self aOther : vector) :
    Res (Heap T × vector) :=
  if thisAddr ≠ otherAddr then
    match h.free self.mData with
    | .fault f => .fault f
    | .ok h1 =>
      match copyLoop self.mData aOther.mData aOther.mLength 0 h1 with
      | .fault f => .fault f
      | .ok h2 =>
        .ok (h2, { mData := self.mData, mLength := aOther.mLength,
                   mCapacity := aOther.mCapacity })
  else .ok (h, self)

/-- Move assignment `operator = (vector&& aOther)`: returns the heap, `*this`
and `aOther` after the call. -/
def vector.assign_move (h : Heap T) (thisAddr otherAddr : Nat) (self aOther : vector) :
    Res (Heap T × vector × vector) :=
  if thisAddr ≠ otherAddr then
    match h.free self.mData with
    | .fault f => .fault f
    | .ok h1 =>
      .ok ((h1.alloc DEFAULT_CAPACITY).1,
        { mData := aOther.mData, mLength := aOther.mLength, mCapacity := aOther.mCapacity },
        { mData := (h1.alloc DEFAULT_CAPACITY).2, mLength := 0,
          mCapacity := DEFAULT_CAPACITY })
  else .ok (h, self, aOther)

/-- Read through `operator []` / `at`. -/
def vector.index (h : Heap T) (o : vector) (aIndex : Nat) : Res (Option T) :=
  h.read o.mData aIndex

/-- Write through the reference returned by `operator []` / `at`. -/
def vector.index_assign (h : Heap T) (o : vector) (aIndex : Nat) (x : T) : Res (Heap T) :=
  h.write o.mData aIndex (some x)

/-- Method `reserve(size_type aCapacity)`. -/
def vector.reserve (h : Heap T) (o : vector) (aCapacity : Nat) : Res (Heap T × vector) :=
  if aCapacity > o.mCapacity then
    match (h.alloc aCapacity).1.memcpy (h.alloc aCapacity).2 o.mData o.mLength with
    | .fault f => .fault f
    | .ok h1 =>
      match h1.free o.mData with
      | .fault f => .fault f
      | .ok h2 =>
        .ok (h2, { mData := (h.alloc aCapacity).2, mLength := o.mLength,
                   mCapacity := aCapacity })
  else .ok (h, o)

/-- Method `capacity()`. -/
def vector.capacity (o : vector) : Nat := o.mCapacity

/-- Method `size()`. -/
def vector.size (o : vector) : Nat := o.mLength

/-- Method `empty()`. -/
def vector.empty (o : vector) : Bool := o.mLength == 0

/-- Method `clear()`. -/
def vector.clear (o : vector) : vector := { o with mLength := 0 }

/-- Method `push_back(const T& aValue)`; the reference is passed on to the
retried call after `reserve`. -/
def vector.push_back : Nat → Heap T → vector → Ref T → Res (Heap T × vector)
  | 0, _, _, _ => .fault .outOfFuel
  | fuel + 1, h, o, aValue =>
    if o.mLength < o.mCapacity then
      match h.deref aValue with
      | .fault f => .fault f
      | .ok x =>
        match h.write o.mData o.mLength x with
        | .fault f => .fault f
        | .ok h1 => .ok (h1, { o with mLength := (o.mLength + 1) % SIZE_MOD })
    else
      match o.reserve h (o.mCapacity * 2 % SIZE_MOD) with
      | .fault f => .fault f
      | .ok r => vector.push_back fuel r.1 r.2 aValue

/-- Method `push_back(T&& aValue)`; the reference is passed on (through
`std::move`) to the retried call after `reserve`. -/
def vector.push_back_move : Nat → Heap T → vector → Ref T → Res (Heap T × vector)
  | 0, _, _, _ => .fault .outOfFuel
  | fuel + 1, h, o, aValue =>
    if o.mLength < o.mCapacity then
      match h.deref aValue with
      | .fault f => .fault f
      | .ok x =>
        match h.write o.mData o.mLength x with
        | .fault f => .fault f
        | .ok h1 => .ok (h1, { o with mLength := (o.mLength + 1) % SIZE_MOD })
    else
      match o.reserve h (o.mCapacity * 2 % SIZE_MOD) with
      | .fault f => .fault f
      | .ok r => vector.push_back_move fuel r.1 r.2 aValue

/-- Shift loop of `insert`:
`for (size_type i = mLength; i >= aPosition; --i) mData[i] = mData[i - 1];`
with `i` and `i - 1` computed in `size_type`. -/
def shiftLoop (p aPosition : Nat) : Nat → Nat → Heap T → Res (Heap T)
  | 0, _, _ => .fault .outOfFuel
  | fuel + 1, i, h =>
    if i ≥ aPosition then
      match h.read p ((i + SIZE_MOD - 1) % SIZE_MOD) with
      | .fault f => .fault f
      | .ok x =>
        match h.write p i x with
        | .fault f => .fault f
        | .ok h1 => shiftLoop p aPosition fuel ((i + SIZE_MOD - 1) % SIZE_MOD) h1
    else .ok h

/-- Method `insert(size_type aPosition, const T& aValue)`; `aValue` is read
after the shift loop, by `mData[aPosition] = aValue`. -/
def vector.insert : Nat → Heap T → vector → Nat → Ref T → Res (Heap T × vector)
  | 0, _, _, _, _ => .fault .outOfFuel
  | fuel + 1, h, o, aPosition, aValue =>
    if aPosition ≥ o.mLength then
      vector.push_back fuel h o aValue
    else if o.mLength < o.mCapacity then
      match shiftLoop o.mData aPosition fuel o.mLength h with
      | .fault f => .fault f
      | .ok h1 =>
        match h1.deref aValue with
        | .fault f => .fault f
        | .ok x =>
          match h1.write o.mData aPosition x with
          | .fault f => .fault f
          | .ok h2 => .ok (h2, { o with mLength := (o.mLength + 1) % SIZE_MOD })
    else
      match o.reserve h (o.mCapacity * 2 % SIZE_MOD) with
      | .fault f => .fault f
      | .ok r => vector.insert fuel r.1 r.2 aPosition aValue

/-- Method `pop_back()`. -/
def vector.pop_back (o : vector) : vector :=
  if o.mLength > 0 then { o with mLength := (o.mLength + SIZE_MOD - 1) % SIZE_MOD } else o

/-- A released, empty block: what an address outside the heap stands for. -/
def deadBlock : Block T := ⟨[], false⟩

/-- The block at address `p`. -/
def blockAt (h : Heap T) (p : Nat) : Block T := (h[p]?).getD deadBlock

/-- The slots `[0, mLength)` of the storage of `o`. -/
def vector.elems (h : Heap T) (o : vector) : List (Option T) :=
  (blockAt h o.mData).slots.take o.mLength

/-- The storage of `o` is a live block of exactly `mCapacity` slots, and
`mLength ≤ mCapacity` with `mCapacity` a `size_type` value. -/
def WF (h : Heap T) (o : vector) : Prop :=
  (blockAt h o.mData).live = true ∧ (blockAt h o.mData).slots.length = o.mCapacity ∧
    o.mLength ≤ o.mCapacity ∧ o.mCapacity < SIZE_MOD

instance (h : Heap T) (o : vector) : Decidable (WF h o) := by
  unfold WF; infer_instance

/-- The vector `o` is well formed and holds exactly the values `es`. -/
def Holds (h : Heap T) (o : vector) (es : List T) : Prop :=
  WF h o ∧ o.elems h = es.map some

instance [DecidableEq T] (h : Heap T) (o : vector) (es : List T) : Decidable (Holds h o es) := by
  unfold Holds; infer_instance

/-- Frame condition of a call on `o` that leads from `(h, o)` to `(h1, o1)`:
the heap only grows, the storage of `o1` is the storage of `o` or a block
allocated by the call, and every other block that existed before the call is
untouched. -/
def Frame (h : Heap T) (o : vector) (h1 : Heap T) (o1 : vector) : Prop :=
  h.length ≤ h1.length ∧ (o1.mData = o.mData ∨ h.length ≤ o1.mData) ∧
    ∀ q, q < h.length → q ≠ o.mData → blockAt h1 q = blockAt h q

/-- The public calls that mutate one vector. -/
inductive Mutation (T : Type) where
  | reserve (aCapacity : Nat)
  | push_back (aValue : Ref T)
  | push_back_move (aValue : Ref T)
  | insert (aPosition : Nat) (aValue : Ref T)
  | pop_back
  | clear
  | index_assign (aIndex : Nat) (aValue : T)

/-- Run one mutating call on `o`. -/
def Mutation.apply (fuel : Nat) (h : Heap T) (o : vector) : Mutation T → Res (Heap T × vector)
  | .reserve c => o.reserve h c
  | .push_back v => o.push_back fuel h v
  | .push_back_move v => o.push_back_move fuel h v
  | .insert p v => o.insert fuel h p v
  | .pop_back => .ok (h, o.pop_back)
  | .clear => .ok (h, o.clear)
  | .index_assign i v =>
    match o.index_assign h i v with
    | .fault f => .fault f
    | .ok h1 => .ok (h1, o)

/-- Run a sequence of mutating calls on one vector, in list order. -/
def applyAll (fuel : Nat) : Heap T → vector → List (Mutation T) → Res (Heap T × vector)
  | h, o, [] => .ok (h, o)
  | h, o, m :: ms =>
    match m.apply fuel h o with
    | .fault f => .fault f
    | .ok r => applyAll fuel r.1 r.2 ms

/-- Heap of `gatools::vector<int> v {1, 2, 3}`: one live block of three slots. -/
def exHeap : Heap Nat := [⟨[some 1, some 2, some 3], true⟩]

/-- Fields of `gatools::vector<int> v {1, 2, 3}`. -/
def exVec : vector := ⟨0, 3, 3⟩

/-- Heap with `v {1, 2, 3}` at address 0 and `w {7}` at address 1. -/
def exHeap2 : Heap Nat := [⟨[some 1, some 2, some 3], true⟩, ⟨[some 7], true⟩]

/-- Fields of `w {7}` in `exHeap2`. -/
def exVec2 : vector := ⟨1, 1, 1⟩

/-- Heap of `v {1, 2, 3}` after `v.reserve(4)`: the released block of three
slots and the live block of four. -/
def exHeapRoom : Heap Nat :=
  [⟨[some 1, some 2, some 3], false⟩, ⟨[some 1, some 2, some 3, none], true⟩]

/-- Fields of `v {1, 2, 3}` after `v.reserve(4)`, in `exHeapRoom`. -/
def exVecRoom : vector := ⟨1, 3, 4⟩

/-- Heap of `gatools::vector<int> v(2147483648u, 0)`: one live block of
`2 ^ 31` slots, each holding 0. -/
def fullHeap : Heap Nat := [⟨List.replicate (2 ^ 31) (some 0), true⟩]

/-- Fields of `gatools::vector<int> v(2147483648u, 0)`. -/
def fullVec : vector := ⟨0, 2 ^ 31, 2 ^ 31⟩

/-! ## Heap lemmas -/

theorem blockAt_live_lt {h : Heap T} {p : Nat} (hl : (blockAt h p).live = true) :
    p < h.length := by
  by_contra hp
  have : h[p]? = none := List.getElem?_eq_none (by omega)
  simp [blockAt, this, deadBlock] at hl

theorem getElem?_of_live {h : Heap T} {p : Nat} (hl : (blockAt h p).live = true) :
    h[p]? = some (blockAt h p) := by
  have hp := blockAt_live_lt hl
  simp [blockAt, List.getElem?_eq_getElem hp]

theorem blockAt_set_self {h : Heap T} {p : Nat} (b : Block T) (hp : p < h.length) :
    blockAt (h.set p b) p = b := by
  simp [blockAt, hp]

theorem blockAt_set_ne {h : Heap T} {p q : Nat} (b : Block T) (hq : q ≠ p) :
    blockAt (h.set p b) q = blockAt h q := by
  simp [blockAt, List.getElem?_set_ne (Ne.symm hq)]

theorem blockAt_append_lt {h : Heap T} {q : Nat} (b : Block T) (hq : q < h.length) :
    blockAt (h ++ [b]) q = blockAt h q := by
  simp [blockAt, List.getElem?_append_left hq]

theorem blockAt_append_self (h : Heap T) (b : Block T) :
    blockAt (h ++ [b]) h.length = b := by
  simp [blockAt]

theorem read_ok {h : Heap T} {p i : Nat} {x : Option T}
    (hl : (blockAt h p).live = true) (hx : (blockAt h p).slots[i]? = some x) :
    h.read p i = .ok x := by
  simp [Heap.read, getElem?_of_live hl, hl, hx]

theorem read_oob {h : Heap T} {p i : Nat} (hi : (blockAt h p).slots.length ≤ i) :
    ∀ x, h.read p i ≠ .ok x := by
  intro x
  unfold Heap.read
  cases hp : h[p]? with
  | none => simp
  | some b =>
    have hb : blockAt h p = b := by simp [blockAt, hp]
    rw [hb] at hi
    have : b.slots[i]? = none := List.getElem?_eq_none hi
    simp only [this]
    split <;> simp

theorem write_ok {h : Heap T} {p i : Nat} (x : Option T)
    (hl : (blockAt h p).live = true) (hi : i < (blockAt h p).slots.length) :
    h.write p i x = .ok (h.set p ⟨(blockAt h p).slots.set i x, true⟩) := by
  simp [Heap.write, getElem?_of_live hl, hl, hi]

theorem write_inv {h h1 : Heap T} {p i : Nat} {x : Option T} (hw : h.write p i x = .ok h1) :
    (blockAt h p).live = true ∧ i < (blockAt h p).slots.length ∧
      h1 = h.set p ⟨(blockAt h p).slots.set i x, true⟩ := by
  unfold Heap.write at hw
  cases hp : h[p]? with
  | none => simp [hp] at hw
  | some b =>
    have hb : blockAt h p = b := by simp [blockAt, hp]
    simp only [hp] at hw
    by_cases hl : b.live = true
    · by_cases hi : i < b.slots.length
      · simp [hl, hi] at hw
        simp [hb, hl, hi, hw]
      · simp [hl, hi] at hw
    · simp [hl] at hw

theorem free_ok {h : Heap T} {p : Nat} (hl : (blockAt h p).live = true) :
    h.free p = .ok (h.set p ⟨(blockAt h p).slots, false⟩) := by
  simp [Heap.free, getElem?_of_live hl, hl]

theorem free_inv {h h1 : Heap T} {p : Nat} (hf : h.free p = .ok h1) :
    (blockAt h p).live = true ∧ h1 = h.set p ⟨(blockAt h p).slots, false⟩ := by
  unfold Heap.free at hf
  cases hp : h[p]? with
  | none => simp [hp] at hf
  | some b =>
    have hb : blockAt h p = b := by simp [blockAt, hp]
    simp only [hp] at hf
    by_cases hl : b.live = true
    · simp [hl] at hf
      simp [hb, hl, hf]
    · simp [hl] at hf

theorem memcpy_ok {h : Heap T} {dst src n : Nat}
    (hd : (blockAt h dst).live = true) (hs : (blockAt h src).live = true)
    (hnd : n ≤ (blockAt h dst).slots.length) (hns : n ≤ (blockAt h src).slots.length) :
    h.memcpy dst src n =
      .ok (h.set dst ⟨(blockAt h src).slots.take n ++ (blockAt h dst).slots.drop n, true⟩) := by
  simp [Heap.memcpy, getElem?_of_live hd, getElem?_of_live hs, hd, hs, hnd, hns]

theorem memcpy_inv {h h1 : Heap T} {dst src n : Nat} (hm : h.memcpy dst src n = .ok h1) :
    h1 = h.set dst ⟨(blockAt h src).slots.take n ++ (blockAt h dst).slots.drop n,
      (blockAt h dst).live⟩ := by
  unfold Heap.memcpy at hm
  cases hd : h[dst]? with
  | none => simp [hd] at hm
  | some d =>
    cases hs : h[src]? with
    | none => simp [hd, hs] at hm
    | some s =>
      have hbd : blockAt h dst = d := by simp [blockAt, hd]
      have hbs : blockAt h src = s := by simp [blockAt, hs]
      simp only [hd, hs] at hm
      split at hm
      · split at hm
        · simp at hm
          simp [hbd, hbs, hm]
        · simp at hm
      · simp at hm

/-! ## `reserve` -/

theorem reserve_noop (h : Heap T) (o : vector) {c : Nat} (hc : c ≤ o.mCapacity) :
    o.reserve h c = .ok (h, o) := by
  simp [vector.reserve, Nat.not_lt.mpr hc]

theorem reserve_grow {h : Heap T} {o : vector} {c : Nat} (hwf : WF h o)
    (hc : o.mCapacity < c) :
    ∃ h1, o.reserve h c = .ok (h1, ⟨h.length, o.mLength, c⟩) ∧ h1.length = h.length + 1 ∧
      blockAt h1 h.length =
        ⟨(blockAt h o.mData).slots.take o.mLength ++ List.replicate (c - o.mLength) none, true⟩ ∧
      blockAt h1 o.mData = ⟨(blockAt h o.mData).slots, false⟩ ∧
      ∀ q, q ≠ o.mData → q ≠ h.length → blockAt h1 q = blockAt h q := by
  obtain ⟨hl, hlen, hle, -⟩ := hwf
  have hp := blockAt_live_lt hl
  have hne : o.mData ≠ h.length := by omega
  have b1 : blockAt (h ++ [(⟨List.replicate c none, true⟩ : Block T)]) h.length =
      ⟨List.replicate c none, true⟩ := blockAt_append_self _ _
  have b2 : blockAt (h ++ [(⟨List.replicate c none, true⟩ : Block T)]) o.mData =
      blockAt h o.mData := blockAt_append_lt _ hp
  have hm := @memcpy_ok T (h ++ [(⟨List.replicate c none, true⟩ : Block T)])
    h.length o.mData o.mLength (by rw [b1]) (by rw [b2]; exact hl)
    (by rw [b1]; simp; omega) (by rw [b2]; omega)
  rw [b1, b2] at hm
  simp only [List.drop_replicate] at hm
  have b3 : blockAt ((h ++ [(⟨List.replicate c none, true⟩ : Block T)]).set h.length
      ⟨(blockAt h o.mData).slots.take o.mLength ++ List.replicate (c - o.mLength) none, true⟩)
      o.mData = blockAt h o.mData := by
    rw [blockAt_set_ne _ hne, b2]
  have hf := free_ok (h := (h ++ [(⟨List.replicate c none, true⟩ : Block T)]).set h.length
      ⟨(blockAt h o.mData).slots.take o.mLength ++ List.replicate (c - o.mLength) none, true⟩)
      (p := o.mData) (by rw [b3]; exact hl)
  rw [b3] at hf
  refine ⟨((h ++ [(⟨List.replicate c none, true⟩ : Block T)]).set h.length
      ⟨(blockAt h o.mData).slots.take o.mLength ++ List.replicate (c - o.mLength) none,
        true⟩).set o.mData ⟨(blockAt h o.mData).slots, false⟩, ?_, ?_, ?_, ?_, ?_⟩
  · unfold vector.reserve
    simp only [Heap.alloc, gt_iff_lt, hc, if_true, hm, hf]
  · simp
  · rw [blockAt_set_ne _ (Ne.symm hne), blockAt_set_self _ (by simp)]
  · rw [blockAt_set_self _ (by simp; omega)]
  · intro q hq1 hq2
    rw [blockAt_set_ne _ hq1, blockAt_set_ne _ hq2]
    by_cases hq : q < h.length
    · exact blockAt_append_lt _ hq
    · have h1 : (h ++ [(⟨List.replicate c none, true⟩ : Block T)])[q]? = none :=
        List.getElem?_eq_none (by simp; omega)
      have h2 : h[q]? = none := List.getElem?_eq_none (by omega)
      simp [blockAt, h1, h2]

theorem reserve_grow_wf {h : Heap T} {o : vector} {c : Nat} (hwf : WF h o)
    (hc : o.mCapacity < c) (hc2 : c < SIZE_MOD) :
    ∃ h1, o.reserve h c = .ok (h1, ⟨h.length, o.mLength, c⟩) ∧ WF h1 ⟨h.length, o.mLength, c⟩ ∧
      vector.elems h1 ⟨h.length, o.mLength, c⟩ = o.elems h := by
  obtain ⟨h1, hr, -, hb, -, -⟩ := reserve_grow hwf hc
  obtain ⟨hl, hlen, hle, -⟩ := hwf
  refine ⟨h1, hr, ⟨?_, ?_, ?_, hc2⟩, ?_⟩
  · simp [hb]
  · simp [hb, hlen]; omega
  · simp only; omega
  · simp only [vector.elems, hb]
    rw [List.take_append_of_le_length (by simp; omega)]
    simp

/-! ## `push_back` -/

theorem take_succ_set {α : Type} (l : List α) (n : Nat) (x : α) (hn : n < l.length) :
    (l.set n x).take (n + 1) = l.take n ++ [x] := by
  induction l generalizing n with
  | nil => simp at hn
  | cons a t ih =>
    cases n with
    | zero => simp
    | succ m =>
      simp only [List.length_cons, Nat.add_lt_add_iff_right] at hn
      simp [ih m hn]

theorem push_back_room {h : Heap T} {o : vector} (fuel : Nat) (r : Ref T) {x : Option T}
    (hd : h.deref r = .ok x) (hwf : WF h o) (hlt : o.mLength < o.mCapacity) :
    o.push_back (fuel + 1) h r =
      .ok (h.set o.mData ⟨(blockAt h o.mData).slots.set o.mLength x, true⟩,
        ⟨o.mData, o.mLength + 1, o.mCapacity⟩) := by
  obtain ⟨hl, hlen, -, hcap⟩ := hwf
  have hm : (o.mLength + 1) % SIZE_MOD = o.mLength + 1 := Nat.mod_eq_of_lt (by omega)
  unfold vector.push_back
  simp only [hlt, if_true, hd, write_ok x hl (by omega : o.mLength < _), hm]

theorem push_back_room_holds {h : Heap T} {o : vector} {es : List T} (fuel : Nat)
    (r : Ref T) {v : T} (hd : h.deref r = .ok (some v)) (hh : Holds h o es)
    (hlt : o.mLength < o.mCapacity) :
    ∃ h1, o.push_back (fuel + 1) h r = .ok (h1, ⟨o.mData, o.mLength + 1, o.mCapacity⟩) ∧
      Holds h1 ⟨o.mData, o.mLength + 1, o.mCapacity⟩ (es ++ [v]) ∧ h1.length = h.length := by
  obtain ⟨hwf, hes⟩ := hh
  refine ⟨_, push_back_room fuel r hd hwf hlt, ?_, by simp⟩
  obtain ⟨hl, hlen, -, hcap⟩ := hwf
  have hp := blockAt_live_lt hl
  refine ⟨⟨?_, ?_, ?_, hcap⟩, ?_⟩
  · simp [blockAt_set_self _ hp]
  · simp [blockAt_set_self _ hp, hlen]
  · simp only; omega
  · simp only [vector.elems, blockAt_set_self _ hp]
    rw [take_succ_set _ _ _ (by omega)]
    simp only [vector.elems] at hes
    simp [hes]

theorem push_back_spec {h : Heap T} {o : vector} {es : List T} {fuel : Nat} (v : T)
    (hh : Holds h o es) (hc1 : 1 ≤ o.mCapacity) (hc2 : 2 * o.mCapacity < SIZE_MOD)
    (hfuel : 2 ≤ fuel) :
    ∃ h1 o1, o.push_back fuel h (.val v) = .ok (h1, o1) ∧ Holds h1 o1 (es ++ [v]) ∧
      o1.mLength = o.mLength + 1 ∧
      o1.mCapacity = (if o.mLength < o.mCapacity then o.mCapacity else 2 * o.mCapacity) ∧
      h1.length ≤ h.length + 1 := by
  obtain ⟨f, rfl⟩ : ∃ f, fuel = f + 2 := ⟨fuel - 2, by omega⟩
  by_cases hlt : o.mLength < o.mCapacity
  · obtain ⟨h1, hr, hh1, hlen1⟩ := push_back_room_holds (f + 1) (.val v) rfl hh hlt
    exact ⟨h1, _, hr, hh1, rfl, by simp [hlt], by omega⟩
  · obtain ⟨hwf, hes⟩ := hh
    have hmod : o.mCapacity * 2 % SIZE_MOD = 2 * o.mCapacity := by
      rw [Nat.mod_eq_of_lt (by omega)]; omega
    obtain ⟨h1, hr, hwf1, hel1⟩ :=
      reserve_grow_wf (c := 2 * o.mCapacity) hwf (by omega) hc2
    have hlen1 : h1.length = h.length + 1 := by
      obtain ⟨h2, hr2, hl2, -⟩ := reserve_grow (c := 2 * o.mCapacity) hwf (by omega)
      rw [hr] at hr2
      injection hr2 with hr2
      injection hr2 with hr2
      rw [hr2]; exact hl2
    have hh1 : Holds h1 ⟨h.length, o.mLength, 2 * o.mCapacity⟩ es := ⟨hwf1, by rw [hel1, hes]⟩
    obtain ⟨h2, hr2, hh2, hlen2⟩ :=
      push_back_room_holds f (.val v) rfl hh1 (by have := hwf.2.2.1; simp only; omega)
    refine ⟨h2, _, ?_, hh2, rfl, by simp [hlt], by omega⟩
    rw [vector.push_back]
    simp only [hlt, if_false, hmod, hr, hr2]

theorem push_back_move_eq (fuel : Nat) (h : Heap T) (o : vector) (v : Ref T) :
    o.push_back_move fuel h v = o.push_back fuel h v := by
  induction fuel generalizing h o with
  | zero => rfl
  | succ n ih =>
    rw [vector.push_back_move, vector.push_back]
    split
    · rfl
    · split
      · rfl
      · exact ih _ _

/-! ## Element-wise copy -/

theorem copyLoop_spec {dst src : Nat} (hne : dst ≠ src) :
    ∀ (k i : Nat) (g : Heap T), (blockAt g src).live = true → (blockAt g dst).live = true →
      i + k ≤ (blockAt g src).slots.length → i + k ≤ (blockAt g dst).slots.length →
      ∃ g1, copyLoop dst src k i g = .ok g1 ∧ g1.length = g.length ∧
        (blockAt g1 dst).live = true ∧
        (blockAt g1 dst).slots.length = (blockAt g dst).slots.length ∧
        (∀ j, (blockAt g1 dst).slots[j]? =
          if i ≤ j ∧ j < i + k then (blockAt g src).slots[j]? else (blockAt g dst).slots[j]?) ∧
        ∀ q, q ≠ dst → blockAt g1 q = blockAt g q := by
  intro k
  induction k with
  | zero =>
    intro i g _ hd _ _
    refine ⟨g, rfl, rfl, hd, rfl, ?_, fun _ _ => rfl⟩
    intro j
    have : ¬ (i ≤ j ∧ j < i) := by omega
    simp [this]
  | succ k ih =>
    intro i g hs hd hks hkd
    have hi : i < (blockAt g src).slots.length := by omega
    have hp := blockAt_live_lt hd
    have hrd := read_ok hs (List.getElem?_eq_getElem hi)
    have hwr2 := write_ok ((blockAt g src).slots[i]) hd (by omega : i < _)
    have bs : blockAt (g.set dst ⟨(blockAt g dst).slots.set i ((blockAt g src).slots[i]), true⟩)
        src = blockAt g src := blockAt_set_ne _ (Ne.symm hne)
    have bd : blockAt (g.set dst ⟨(blockAt g dst).slots.set i ((blockAt g src).slots[i]), true⟩)
        dst = ⟨(blockAt g dst).slots.set i ((blockAt g src).slots[i]), true⟩ :=
      blockAt_set_self _ hp
    obtain ⟨g1, hr, hlen, hl1, hsl, hpt, hfr⟩ :=
      ih (i + 1) (g.set dst ⟨(blockAt g dst).slots.set i ((blockAt g src).slots[i]), true⟩)
        (by rw [bs]; exact hs) (by rw [bd]) (by rw [bs]; omega) (by rw [bd]; simp; omega)
    refine ⟨g1, ?_, ?_, hl1, ?_, ?_, ?_⟩
    · rw [copyLoop, hrd]
      simp only [hwr2, hr]
    · simp [hlen]
    · rw [hsl, bd]; simp
    · intro j
      rw [hpt j, bs, bd]
      by_cases hj : j = i
      · subst hj
        have h1 : ¬ (j + 1 ≤ j ∧ j < j + 1 + k) := by omega
        have h2 : (j ≤ j ∧ j < j + (k + 1)) := by omega
        simp only [h1, h2, if_false, if_true]
        rw [List.getElem?_set_self (by omega), List.getElem?_eq_getElem hi]
        simp
      · have h3 : (i + 1 ≤ j ∧ j < i + 1 + k) ↔ (i ≤ j ∧ j < i + (k + 1)) := by omega
        simp only [h3]
        rw [List.getElem?_set_ne (Ne.symm hj)]
    · intro q hq
      rw [hfr q hq, blockAt_set_ne _ hq]

theorem ctor_copy_spec {h : Heap T} {a : vector} {es : List T} (hh : Holds h a es) :
    ∃ h1, vector.ctor_copy h a = .ok (h1, ⟨h.length, a.mLength, a.mCapacity⟩) ∧
      h1.length = h.length + 1 ∧ Holds h1 ⟨h.length, a.mLength, a.mCapacity⟩ es ∧
      ∀ q, q < h.length → blockAt h1 q = blockAt h q := by
  obtain ⟨⟨hl, hlen, hle, hcap⟩, hes⟩ := hh
  have hp := blockAt_live_lt hl
  have hne : h.length ≠ a.mData := by omega
  have b1 : blockAt (h ++ [(⟨List.replicate a.mCapacity none, true⟩ : Block T)]) h.length =
      ⟨List.replicate a.mCapacity none, true⟩ := blockAt_append_self _ _
  have b2 : blockAt (h ++ [(⟨List.replicate a.mCapacity none, true⟩ : Block T)]) a.mData =
      blockAt h a.mData := blockAt_append_lt _ hp
  obtain ⟨g1, hr, hlen1, hl1, hsl, hpt, hfr⟩ := copyLoop_spec hne a.mLength 0
    (h ++ [(⟨List.replicate a.mCapacity none, true⟩ : Block T)])
    (by rw [b2]; exact hl) (by rw [b1]) (by rw [b2]; omega) (by rw [b1]; simp; omega)
  refine ⟨g1, ?_, by simp [hlen1], ⟨⟨hl1, ?_, hle, hcap⟩, ?_⟩, ?_⟩
  · unfold vector.ctor_copy
    simp only [Heap.alloc, hr]
  · rw [hsl, b1]; simp
  · rw [← hes]
    simp only [vector.elems]
    apply List.ext_getElem?
    intro j
    rw [List.getElem?_take, List.getElem?_take, hpt j, b2]
    by_cases hj : j < a.mLength
    · simp [hj]
    · simp [hj]
  · intro q hq
    rw [hfr q (by omega), blockAt_append_lt _ hq]

/-! ## Frame lemmas -/

theorem Frame.refl (h : Heap T) (o : vector) : Frame h o h o :=
  ⟨le_refl _, Or.inl rfl, fun _ _ _ => rfl⟩

theorem Frame.trans {h h1 h2 : Heap T} {o o1 o2 : vector} (f1 : Frame h o h1 o1)
    (f2 : Frame h1 o1 h2 o2) : Frame h o h2 o2 := by
  obtain ⟨l1, d1, b1⟩ := f1
  obtain ⟨l2, d2, b2⟩ := f2
  refine ⟨by omega, ?_, ?_⟩
  · rcases d2 with d2 | d2
    · rw [d2]; exact d1
    · right; omega
  · intro q hq hne
    rw [b2 q (by omega) (by rcases d1 with d1 | d1 <;> omega), b1 q hq hne]

theorem write_frame {h h1 : Heap T} {p i : Nat} {x : Option T}
    (hw : h.write p i x = .ok h1) :
    h1.length = h.length ∧ ∀ q, q ≠ p → blockAt h1 q = blockAt h q := by
  obtain ⟨-, -, rfl⟩ := write_inv hw
  exact ⟨by simp, fun q hq => blockAt_set_ne _ hq⟩

theorem reserve_inv {h : Heap T} {o : vector} {c : Nat} {r : Heap T × vector}
    (hr : o.reserve h c = .ok r) :
    (c ≤ o.mCapacity ∧ r = (h, o)) ∨
    (o.mCapacity < c ∧ r.2 = ⟨h.length, o.mLength, c⟩ ∧ r.1.length = h.length + 1 ∧
      ∀ q, q < h.length → q ≠ o.mData → blockAt r.1 q = blockAt h q) := by
  unfold vector.reserve at hr
  by_cases hc : c > o.mCapacity
  · right
    simp only [hc, if_true, Heap.alloc] at hr
    cases hm : (h ++ [(⟨List.replicate c none, true⟩ : Block T)]).memcpy h.length o.mData
        o.mLength with
    | fault f => simp [hm] at hr
    | ok g1 =>
      simp only [hm] at hr
      cases hf : g1.free o.mData with
      | fault f => simp [hf] at hr
      | ok g2 =>
        simp only [hf, Res.ok.injEq] at hr
        subst hr
        have e1 := memcpy_inv hm
        obtain ⟨-, e2⟩ := free_inv hf
        refine ⟨hc, rfl, ?_, ?_⟩
        · simp only [e2, e1]; simp
        · intro q hq hne
          simp only [e2]
          rw [blockAt_set_ne _ hne, e1, blockAt_set_ne _ (by omega), blockAt_append_lt _ hq]
  · left
    simp only [hc, if_false, Res.ok.injEq] at hr
    exact ⟨by omega, hr.symm⟩

theorem reserve_frame {h : Heap T} {o : vector} {c : Nat} {r : Heap T × vector}
    (hr : o.reserve h c = .ok r) : Frame h o r.1 r.2 := by
  rcases reserve_inv hr with ⟨-, rfl⟩ | ⟨-, h2, h3, h4⟩
  · exact Frame.refl _ _
  · exact ⟨by omega, Or.inr (by rw [h2]), h4⟩

theorem push_back_frame : ∀ (fuel : Nat) (h : Heap T) (o : vector) (v : Ref T)
    (r : Heap T × vector), o.push_back fuel h v = .ok r → Frame h o r.1 r.2 := by
  intro fuel
  induction fuel with
  | zero => intro h o v r hr; simp [vector.push_back] at hr
  | succ n ih =>
    intro h o v r hr
    rw [vector.push_back] at hr
    split at hr
    · cases hd : h.deref v with
      | fault f => simp [hd] at hr
      | ok x =>
        simp only [hd] at hr
        cases hw : h.write o.mData o.mLength x with
        | fault f => simp [hw] at hr
        | ok h1 =>
          simp only [hw, Res.ok.injEq] at hr
          subst hr
          obtain ⟨hl, hb⟩ := write_frame hw
          exact ⟨by simp [hl], Or.inl rfl, fun q _ hne => hb q hne⟩
    · cases hres : o.reserve h (o.mCapacity * 2 % SIZE_MOD) with
      | fault f => simp [hres] at hr
      | ok r1 =>
        simp only [hres] at hr
        exact Frame.trans (reserve_frame hres) (ih _ _ _ _ hr)

theorem shiftLoop_frame {p pos : Nat} : ∀ (fuel i : Nat) (h h1 : Heap T),
    shiftLoop p pos fuel i h = .ok h1 →
      h1.length = h.length ∧ ∀ q, q ≠ p → blockAt h1 q = blockAt h q := by
  intro fuel
  induction fuel with
  | zero => intro i h h1 hr; simp [shiftLoop] at hr
  | succ n ih =>
    intro i h h1 hr
    rw [shiftLoop] at hr
    split at hr
    · cases hrd : h.read p ((i + SIZE_MOD - 1) % SIZE_MOD) with
      | fault f => simp [hrd] at hr
      | ok x =>
        simp only [hrd] at hr
        cases hw : h.write p i x with
        | fault f => simp [hw] at hr
        | ok h2 =>
          simp only [hw] at hr
          obtain ⟨l1, b1⟩ := write_frame hw
          obtain ⟨l2, b2⟩ := ih _ _ _ hr
          exact ⟨by omega, fun q hq => by rw [b2 q hq, b1 q hq]⟩
    · simp only [Res.ok.injEq] at hr
      subst hr
      exact ⟨rfl, fun _ _ => rfl⟩

theorem insert_frame : ∀ (fuel : Nat) (h : Heap T) (o : vector) (pos : Nat) (v : Ref T)
    (r : Heap T × vector), o.insert fuel h pos v = .ok r → Frame h o r.1 r.2 := by
  intro fuel
  induction fuel with
  | zero => intro h o pos v r hr; simp [vector.insert] at hr
  | succ n ih =>
    intro h o pos v r hr
    rw [vector.insert] at hr
    split at hr
    · exact push_back_frame _ _ _ _ _ hr
    · split at hr
      · cases hs : shiftLoop o.mData pos n o.mLength h with
        | fault f => simp [hs] at hr
        | ok h1 =>
          simp only [hs] at hr
          cases hd : h1.deref v with
          | fault f => simp [hd] at hr
          | ok x =>
            simp only [hd] at hr
            cases hw : h1.write o.mData pos x with
            | fault f => simp [hw] at hr
            | ok h2 =>
              simp only [hw, Res.ok.injEq] at hr
              subst hr
              obtain ⟨l1, b1⟩ := shiftLoop_frame _ _ _ _ hs
              obtain ⟨l2, b2⟩ := write_frame hw
              exact ⟨by simp only; omega, Or.inl rfl,
                fun q _ hne => by simp only; rw [b2 q hne, b1 q hne]⟩
      · cases hres : o.reserve h (o.mCapacity * 2 % SIZE_MOD) with
        | fault f => simp [hres] at hr
        | ok r1 =>
          simp only [hres] at hr
          exact Frame.trans (reserve_frame hres) (ih _ _ _ _ _ hr)

theorem apply_frame {fuel : Nat} {h : Heap T} {o : vector} {m : Mutation T}
    {r : Heap T × vector} (hr : m.apply fuel h o = .ok r) : Frame h o r.1 r.2 := by
  cases m with
  | reserve c => exact reserve_frame hr
  | push_back v => exact push_back_frame _ _ _ _ _ hr
  | push_back_move v =>
    simp only [Mutation.apply, push_back_move_eq] at hr
    exact push_back_frame _ _ _ _ _ hr
  | insert p v => exact insert_frame _ _ _ _ _ _ hr
  | pop_back =>
    simp only [Mutation.apply, Res.ok.injEq] at hr
    subst hr
    exact ⟨le_refl _, Or.inl (by simp only [vector.pop_back]; split <;> rfl), fun _ _ _ => rfl⟩
  | clear =>
    simp only [Mutation.apply, Res.ok.injEq] at hr
    subst hr
    exact ⟨le_refl _, Or.inl rfl, fun _ _ _ => rfl⟩
  | index_assign i v =>
    simp only [Mutation.apply, vector.index_assign] at hr
    cases hw : h.write o.mData i (some v) with
    | fault f => simp [hw] at hr
    | ok h1 =>
      simp only [hw, Res.ok.injEq] at hr
      subst hr
      obtain ⟨l1, b1⟩ := write_frame hw
      exact ⟨by simp [l1], Or.inl rfl, fun q _ hne => b1 q hne⟩

theorem applyAll_frame {fuel : Nat} : ∀ (ms : List (Mutation T)) (h : Heap T) (o : vector)
    (r : Heap T × vector), applyAll fuel h o ms = .ok r → Frame h o r.1 r.2 := by
  intro ms
  induction ms with
  | nil =>
    intro h o r hr
    simp only [applyAll, Res.ok.injEq] at hr
    subst hr
    exact Frame.refl _ _
  | cons m ms ih =>
    intro h o r hr
    rw [applyAll] at hr
    cases hm : m.apply fuel h o with
    | fault f => simp [hm] at hr
    | ok r1 =>
      simp only [hm] at hr
      exact Frame.trans (apply_frame hm) (ih _ _ _ hr)

/-! ## `insert` at position 0 -/

theorem shiftLoop_zero_never {p : Nat} : ∀ (fuel i : Nat) (h h1 : Heap T),
    shiftLoop p 0 fuel i h ≠ .ok h1 := by
  intro fuel
  induction fuel with
  | zero => intro i h h1 hr; simp [shiftLoop] at hr
  | succ n ih =>
    intro i h h1 hr
    rw [shiftLoop] at hr
    simp only [ge_iff_le, Nat.zero_le, if_true] at hr
    cases hrd : h.read p ((i + SIZE_MOD - 1) % SIZE_MOD) with
    | fault f => simp [hrd] at hr
    | ok x =>
      simp only [hrd] at hr
      cases hw : h.write p i x with
      | fault f => simp [hw] at hr
      | ok h2 =>
        simp only [hw] at hr
        exact ih _ _ _ hr

theorem reserve_length {h : Heap T} {o : vector} {c : Nat} {r : Heap T × vector}
    (hr : o.reserve h c = .ok r) : r.2.mLength = o.mLength ∧ o.mCapacity ≤ r.2.mCapacity := by
  rcases reserve_inv hr with ⟨-, rfl⟩ | ⟨hc, h2, -, -⟩
  · exact ⟨rfl, le_refl _⟩
  · rw [h2]; exact ⟨rfl, by simp only; omega⟩

theorem insert_zero_never : ∀ (fuel : Nat) (h : Heap T) (o : vector) (v : Ref T)
    (r : Heap T × vector), 0 < o.mLength → o.insert fuel h 0 v ≠ .ok r := by
  intro fuel
  induction fuel with
  | zero => intro h o v r _ hr; simp [vector.insert] at hr
  | succ n ih =>
    intro h o v r hpos hr
    rw [vector.insert] at hr
    have h0 : ¬ (0 ≥ o.mLength) := by omega
    simp only [h0, if_false] at hr
    split at hr
    · cases hs : shiftLoop o.mData 0 n o.mLength h with
      | fault f => simp [hs] at hr
      | ok h1 => exact shiftLoop_zero_never _ _ _ _ hs
    · cases hres : o.reserve h (o.mCapacity * 2 % SIZE_MOD) with
      | fault f => simp [hres] at hr
      | ok r1 =>
        simp only [hres] at hr
        exact ih _ _ _ _ (by rw [(reserve_length hres).1]; exact hpos) hr

/-! ## `size() ≤ capacity()` -/

theorem push_back_le : ∀ (fuel : Nat) (h : Heap T) (o : vector) (v : Ref T)
    (r : Heap T × vector), o.push_back fuel h v = .ok r → r.2.mLength ≤ r.2.mCapacity := by
  intro fuel
  induction fuel with
  | zero => intro h o v r hr; simp [vector.push_back] at hr
  | succ n ih =>
    intro h o v r hr
    rw [vector.push_back] at hr
    split at hr
    · next hlt =>
      cases hd : h.deref v with
      | fault f => simp [hd] at hr
      | ok x =>
        simp only [hd] at hr
        cases hw : h.write o.mData o.mLength x with
        | fault f => simp [hw] at hr
        | ok h1 =>
          simp only [hw, Res.ok.injEq] at hr
          subst hr
          have := Nat.mod_le (o.mLength + 1) SIZE_MOD
          simp only
          omega
    · cases hres : o.reserve h (o.mCapacity * 2 % SIZE_MOD) with
      | fault f => simp [hres] at hr
      | ok r1 =>
        simp only [hres] at hr
        exact ih _ _ _ _ hr

theorem insert_le : ∀ (fuel : Nat) (h : Heap T) (o : vector) (pos : Nat) (v : Ref T)
    (r : Heap T × vector), o.insert fuel h pos v = .ok r → r.2.mLength ≤ r.2.mCapacity := by
  intro fuel
  induction fuel with
  | zero => intro h o pos v r hr; simp [vector.insert] at hr
  | succ n ih =>
    intro h o pos v r hr
    rw [vector.insert] at hr
    split at hr
    · exact push_back_le _ _ _ _ _ hr
    · split at hr
      · next hlt =>
        cases hs : shiftLoop o.mData pos n o.mLength h with
        | fault f => simp [hs] at hr
        | ok h1 =>
          simp only [hs] at hr
          cases hd : h1.deref v with
          | fault f => simp [hd] at hr
          | ok x =>
            simp only [hd] at hr
            cases hw : h1.write o.mData pos x with
            | fault f => simp [hw] at hr
            | ok h2 =>
              simp only [hw, Res.ok.injEq] at hr
              subst hr
              have := Nat.mod_le (o.mLength + 1) SIZE_MOD
              simp only
              omega
      · cases hres : o.reserve h (o.mCapacity * 2 % SIZE_MOD) with
        | fault f => simp [hres] at hr
        | ok r1 =>
          simp only [hres] at hr
          exact ih _ _ _ _ _ hr

theorem pop_back_le (o : vector) (hle : o.mLength ≤ o.mCapacity) :
    o.pop_back.mLength ≤ o.pop_back.mCapacity := by
  unfold vector.pop_back
  split
  · next hpos =>
    simp only
    have e : o.mLength + SIZE_MOD - 1 = (o.mLength - 1) + 1 * SIZE_MOD := by
      simp only [SIZE_MOD]; omega
    rw [e, Nat.add_mul_mod_self_right]
    have := Nat.mod_le (o.mLength - 1) SIZE_MOD
    omega
  · exact hle

theorem apply_le {fuel : Nat} {h : Heap T} {o : vector} {m : Mutation T}
    {r : Heap T × vector} (hle : o.mLength ≤ o.mCapacity) (hr : m.apply fuel h o = .ok r) :
    r.2.mLength ≤ r.2.mCapacity := by
  cases m with
  | reserve c =>
    have := reserve_length (h := h) (o := o) (c := c) hr
    omega
  | push_back v => exact push_back_le _ _ _ _ _ hr
  | push_back_move v =>
    simp only [Mutation.apply, push_back_move_eq] at hr
    exact push_back_le _ _ _ _ _ hr
  | insert p v => exact insert_le _ _ _ _ _ _ hr
  | pop_back =>
    simp only [Mutation.apply, Res.ok.injEq] at hr
    subst hr
    exact pop_back_le o hle
  | clear =>
    simp only [Mutation.apply, Res.ok.injEq] at hr
    subst hr
    simp [vector.clear]
  | index_assign i v =>
    simp only [Mutation.apply] at hr
    cases hw : o.index_assign h i v with
    | fault f => simp [hw] at hr
    | ok h1 =>
      simp only [hw, Res.ok.injEq] at hr
      subst hr
      exact hle

/-! ## Growth by doubling -/

theorem push_back_stuck : ∀ (fuel : Nat) (h : Heap T) (o : vector) (v : Ref T),
    ¬ o.mLength < o.mCapacity → o.mCapacity * 2 % SIZE_MOD ≤ o.mCapacity →
      o.push_back fuel h v = .fault .outOfFuel := by
  intro fuel
  induction fuel with
  | zero => intro h o v _ _; rfl
  | succ n ih =>
    intro h o v hfull hwrap
    rw [vector.push_back]
    simp only [hfull, if_false, reserve_noop h o hwrap]
    exact ih h o v hfull hwrap

theorem push_back_mono : ∀ (fuel : Nat) (h : Heap T) (o : vector) (v : Ref T)
    (r : Heap T × vector), o.push_back fuel h v = .ok r → o.push_back (fuel + 1) h v = .ok r := by
  intro fuel
  induction fuel with
  | zero => intro h o v r hr; simp [vector.push_back] at hr
  | succ n ih =>
    intro h o v r hr
    rw [vector.push_back] at hr ⊢
    split
    · next hlt => simpa only [hlt, if_true] using hr
    · next hlt =>
      simp only [hlt, if_false] at hr
      cases hres : o.reserve h (o.mCapacity * 2 % SIZE_MOD) with
      | fault f => simp [hres] at hr
      | ok r1 =>
        simp only [hres] at hr ⊢
        exact ih _ _ _ _ hr

theorem push_back_mono_le {f g : Nat} (hfg : f ≤ g) {h : Heap T} {o : vector} {v : Ref T}
    {r : Heap T × vector} (hr : o.push_back f h v = .ok r) : o.push_back g h v = .ok r := by
  induction hfg with
  | refl => exact hr
  | step _ ih => exact push_back_mono _ _ _ _ _ ih

theorem holds_of_block_eq {h h1 : Heap T} {a : vector} {es : List T} (hh : Holds h a es)
    (hb : blockAt h1 a.mData = blockAt h a.mData) : Holds h1 a es := by
  unfold Holds WF vector.elems at *
  rw [hb]
  exact hh

theorem holds_index {h : Heap T} {o : vector} {es : List T} (hh : Holds h o es) {i : Nat}
    (hi : i < es.length) : o.index h i = .ok (some (es.get ⟨i, hi⟩)) := by
  obtain ⟨⟨hl, hlen, hle, -⟩, hes⟩ := hh
  have hlen2 : o.mLength = es.length := by
    have := congrArg List.length hes
    simp only [vector.elems, List.length_take, List.length_map] at this
    omega
  have h1 : (o.elems h)[i]? = some (some (es.get ⟨i, hi⟩)) := by
    rw [hes]; simp
  simp only [vector.elems, List.getElem?_take] at h1
  have h2 : i < o.mLength := by omega
  simp only [h2, if_true] at h1
  exact read_ok hl h1

theorem fresh_default_holds {h : Heap T} : Holds (h ++ [(⟨List.replicate 1 none, true⟩ : Block T)])
    ⟨h.length, 0, 1⟩ ([] : List T) := by
  refine ⟨⟨?_, ?_, ?_, ?_⟩, ?_⟩
  · simp [blockAt_append_self]
  · simp [blockAt_append_self]
  · simp
  · simp [SIZE_MOD]
  · simp [vector.elems]

theorem push_back_after_move {h1 : Heap T} {a1 b1 : vector} {es : List T} (x : T) {fuel : Nat}
    (hfuel : 1 ≤ fuel) (ha : Holds h1 a1 ([] : List T)) (hlen : a1.mLength = 0)
    (hcap : a1.mCapacity = 1) (hb : Holds h1 b1 es) (hne : b1.mData ≠ a1.mData) :
    ∃ h2 a2, a1.push_back fuel h1 (.val x) = .ok (h2, a2) ∧ a2.size = 1 ∧
      a2.index h2 0 = .ok (some x) ∧ Holds h2 a2 [x] ∧ Holds h2 b1 es := by
  obtain ⟨f, rfl⟩ : ∃ f, fuel = f + 1 := ⟨fuel - 1, by omega⟩
  obtain ⟨h2, hr, hh2, -⟩ := push_back_room_holds f (.val x) rfl ha (by omega)
  refine ⟨h2, _, hr, by simp [vector.size, hlen], ?_, by simpa using hh2, ?_⟩
  · have := holds_index hh2 (i := 0) (by simp)
    simpa using this
  · have hfr := push_back_frame _ _ _ _ _ hr
    exact holds_of_block_eq hb (hfr.2.2 _ (blockAt_live_lt hb.1.1) hne)

/-! ## Filling constructors -/

theorem fillLoop_spec {dst : Nat} (v : T) :
    ∀ (k i : Nat) (g : Heap T), (blockAt g dst).live = true →
      i + k ≤ (blockAt g dst).slots.length →
      ∃ g1, fillLoop dst v k i g = .ok g1 ∧ g1.length = g.length ∧
        (blockAt g1 dst).live = true ∧
        (blockAt g1 dst).slots.length = (blockAt g dst).slots.length ∧
        (∀ j, (blockAt g1 dst).slots[j]? =
          if i ≤ j ∧ j < i + k then some (some v) else (blockAt g dst).slots[j]?) ∧
        ∀ q, q ≠ dst → blockAt g1 q = blockAt g q := by
  intro k
  induction k with
  | zero =>
    intro i g hd _
    refine ⟨g, rfl, rfl, hd, rfl, ?_, fun _ _ => rfl⟩
    intro j
    have : ¬ (i ≤ j ∧ j < i) := by omega
    simp [this]
  | succ k ih =>
    intro i g hd hkd
    have hp := blockAt_live_lt hd
    have hwr := write_ok (some v) hd (by omega : i < _)
    have bd : blockAt (g.set dst ⟨(blockAt g dst).slots.set i (some v), true⟩) dst =
        ⟨(blockAt g dst).slots.set i (some v), true⟩ := blockAt_set_self _ hp
    obtain ⟨g1, hr, hlen, hl1, hsl, hpt, hfr⟩ :=
      ih (i + 1) (g.set dst ⟨(blockAt g dst).slots.set i (some v), true⟩)
        (by rw [bd]) (by rw [bd]; simp; omega)
    refine ⟨g1, ?_, ?_, hl1, ?_, ?_, ?_⟩
    · rw [fillLoop, hwr]
      exact hr
    · simp [hlen]
    · rw [hsl, bd]; simp
    · intro j
      rw [hpt j, bd]
      by_cases hj : j = i
      · subst hj
        have h1 : ¬ (j + 1 ≤ j ∧ j < j + 1 + k) := by omega
        have h2 : (j ≤ j ∧ j < j + (k + 1)) := by omega
        simp only [h1, h2, if_false]
        rw [List.getElem?_set_self (by omega)]
        simp
      · have h3 : (i + 1 ≤ j ∧ j < i + 1 + k) ↔ (i ≤ j ∧ j < i + (k + 1)) := by omega
        simp only [h3]
        rw [List.getElem?_set_ne (Ne.symm hj)]
    · intro q hq
      rw [hfr q hq, blockAt_set_ne _ hq]

theorem stdCopy_spec {dst : Nat} :
    ∀ (xs : List T) (i : Nat) (g : Heap T), (blockAt g dst).live = true →
      i + xs.length ≤ (blockAt g dst).slots.length →
      ∃ g1, stdCopy dst xs i g = .ok g1 ∧ g1.length = g.length ∧
        (blockAt g1 dst).live = true ∧
        (blockAt g1 dst).slots.length = (blockAt g dst).slots.length ∧
        (∀ j, (blockAt g1 dst).slots[j]? =
          if i ≤ j ∧ j < i + xs.length then (xs[j - i]?).map some
          else (blockAt g dst).slots[j]?) ∧
        ∀ q, q ≠ dst → blockAt g1 q = blockAt g q := by
  intro xs
  induction xs with
  | nil =>
    intro i g hd _
    refine ⟨g, rfl, rfl, hd, rfl, ?_, fun _ _ => rfl⟩
    intro j
    have : ¬ (i ≤ j ∧ j < i) := by omega
    simp [this]
  | cons x xs ih =>
    intro i g hd hkd
    simp only [List.length_cons] at hkd
    have hp := blockAt_live_lt hd
    have hwr := write_ok (some x) hd (by omega : i < _)
    have bd : blockAt (g.set dst ⟨(blockAt g dst).slots.set i (some x), true⟩) dst =
        ⟨(blockAt g dst).slots.set i (some x), true⟩ := blockAt_set_self _ hp
    obtain ⟨g1, hr, hlen, hl1, hsl, hpt, hfr⟩ :=
      ih (i + 1) (g.set dst ⟨(blockAt g dst).slots.set i (some x), true⟩)
        (by rw [bd]) (by rw [bd]; simp; omega)
    refine ⟨g1, ?_, ?_, hl1, ?_, ?_, ?_⟩
    · rw [stdCopy, hwr]
      exact hr
    · simp [hlen]
    · rw [hsl, bd]; simp
    · intro j
      rw [hpt j, bd]
      simp only [List.length_cons]
      by_cases hj : j = i
      · subst hj
        have h1 : ¬ (j + 1 ≤ j ∧ j < j + 1 + xs.length) := by omega
        have h2 : (j ≤ j ∧ j < j + (xs.length + 1)) := by omega
        simp only [h1, h2, if_false]
        rw [List.getElem?_set_self (by omega)]
        simp
      · rw [List.getElem?_set_ne (Ne.symm hj)]
        by_cases hin : i + 1 ≤ j ∧ j < i + 1 + xs.length
        · have h4 : i ≤ j ∧ j < i + (xs.length + 1) := by omega
          obtain ⟨d, hd2⟩ : ∃ d, j - i = d + 1 := ⟨j - i - 1, by omega⟩
          have h5 : j - (i + 1) = d := by omega
          simp only [hin, h4, and_self, if_true, hd2, h5, List.getElem?_cons_succ]
        · have h4 : ¬ (i ≤ j ∧ j < i + (xs.length + 1)) := by omega
          simp only [hin, h4, if_false]
    · intro q hq
      rw [hfr q hq, blockAt_set_ne _ hq]

theorem ctor_count_spec (h : Heap T) (n : Nat) (v : T) (hn : n < SIZE_MOD) :
    ∃ h1, vector.ctor_count h n v = .ok (h1, ⟨h.length, n, n⟩) ∧
      Holds h1 ⟨h.length, n, n⟩ (List.replicate n v) ∧ h1.length = h.length + 1 ∧
      ∀ q, q < h.length → blockAt h1 q = blockAt h q := by
  have b1 : blockAt (h ++ [(⟨List.replicate n none, true⟩ : Block T)]) h.length =
      ⟨List.replicate n none, true⟩ := blockAt_append_self _ _
  obtain ⟨g1, hr, hlen1, hl1, hsl, hpt, hfr⟩ := fillLoop_spec v n 0
    (h ++ [(⟨List.replicate n none, true⟩ : Block T)]) (by rw [b1]) (by rw [b1]; simp)
  refine ⟨g1, ?_, ⟨⟨hl1, ?_, le_refl _, hn⟩, ?_⟩, by simp [hlen1], ?_⟩
  · unfold vector.ctor_count
    simp only [Heap.alloc, hr]
  · rw [hsl, b1]; simp
  · simp only [vector.elems]
    apply List.ext_getElem?
    intro j
    rw [List.getElem?_take, hpt j, b1]
    by_cases hj : j < n
    · simp [hj, List.getElem?_replicate]
    · simp [hj, List.getElem?_replicate]
  · intro q hq
    rw [hfr q (by omega), blockAt_append_lt _ hq]

theorem ctor_init_list_spec (h : Heap T) (l : List T) (hn : l.length < SIZE_MOD) :
    ∃ h1, vector.ctor_init_list h l = .ok (h1, ⟨h.length, l.length, l.length⟩) ∧
      Holds h1 ⟨h.length, l.length, l.length⟩ l ∧ h1.length = h.length + 1 ∧
      ∀ q, q < h.length → blockAt h1 q = blockAt h q := by
  have hmod : l.length % SIZE_MOD = l.length := Nat.mod_eq_of_lt hn
  have b1 : blockAt (h ++ [(⟨List.replicate l.length none, true⟩ : Block T)]) h.length =
      ⟨List.replicate l.length none, true⟩ := blockAt_append_self _ _
  obtain ⟨g1, hr, hlen1, hl1, hsl, hpt, hfr⟩ := stdCopy_spec l 0
    (h ++ [(⟨List.replicate l.length none, true⟩ : Block T)]) (by rw [b1])
    (by rw [b1]; simp)
  refine ⟨g1, ?_, ⟨⟨hl1, ?_, le_refl _, hn⟩, ?_⟩, by simp [hlen1], ?_⟩
  · unfold vector.ctor_init_list
    simp only [Heap.alloc, hmod, hr]
  · rw [hsl, b1]; simp
  · simp only [vector.elems]
    apply List.ext_getElem?
    intro j
    rw [List.getElem?_take, hpt j, b1]
    by_cases hj : j < l.length
    · simp [hj]
    · have hnone : l[j]? = none := List.getElem?_eq_none (by omega)
      simp [hj, hnone]
  · intro q hq
    rw [hfr q (by omega), blockAt_append_lt _ hq]

/-! ## `insert` at a position `≥ 1` -/

theorem size_pred_mod {i : Nat} (h1 : 1 ≤ i) (h2 : i < SIZE_MOD) :
    (i + SIZE_MOD - 1) % SIZE_MOD = i - 1 := by
  have e : i + SIZE_MOD - 1 = (i - 1) + 1 * SIZE_MOD := by omega
  rw [e, Nat.add_mul_mod_self_right, Nat.mod_eq_of_lt (by omega)]

theorem shiftLoop_spec {p pos : Nat} (hpos : 1 ≤ pos) :
    ∀ (k fuel i : Nat) (g : Heap T), i + 1 = pos + k → k + 1 ≤ fuel →
      (blockAt g p).live = true → i < (blockAt g p).slots.length → i < SIZE_MOD →
      ∃ g1, shiftLoop p pos fuel i g = .ok g1 ∧ g1.length = g.length ∧
        (blockAt g1 p).live = true ∧
        (blockAt g1 p).slots.length = (blockAt g p).slots.length ∧
        (∀ j, (blockAt g1 p).slots[j]? =
          if pos ≤ j ∧ j ≤ i then (blockAt g p).slots[j - 1]? else (blockAt g p).slots[j]?) ∧
        ∀ q, q ≠ p → blockAt g1 q = blockAt g q := by
  intro k
  induction k with
  | zero =>
    intro fuel i g hik hfuel hl _ _
    obtain ⟨f, rfl⟩ : ∃ f, fuel = f + 1 := ⟨fuel - 1, by omega⟩
    refine ⟨g, ?_, rfl, hl, rfl, ?_, fun _ _ => rfl⟩
    · rw [shiftLoop]
      have : ¬ (i ≥ pos) := by omega
      simp only [this, if_false]
    · intro j
      have : ¬ (pos ≤ j ∧ j ≤ i) := by omega
      simp only [this, if_false]
  | succ k ih =>
    intro fuel i g hik hfuel hl hi hM
    obtain ⟨f, rfl⟩ : ∃ f, fuel = f + 1 := ⟨fuel - 1, by omega⟩
    have hge : i ≥ pos := by omega
    have hpp := blockAt_live_lt hl
    have hm := size_pred_mod (by omega : 1 ≤ i) hM
    have hi1 : i - 1 < (blockAt g p).slots.length := by omega
    have hrd := read_ok hl (List.getElem?_eq_getElem hi1)
    have hwr := write_ok ((blockAt g p).slots[i - 1]) hl hi
    have bd : blockAt (g.set p ⟨(blockAt g p).slots.set i ((blockAt g p).slots[i - 1]), true⟩)
        p = ⟨(blockAt g p).slots.set i ((blockAt g p).slots[i - 1]), true⟩ :=
      blockAt_set_self _ hpp
    obtain ⟨g1, hr, hlen, hl1, hsl, hpt, hfr⟩ :=
      ih f (i - 1) (g.set p ⟨(blockAt g p).slots.set i ((blockAt g p).slots[i - 1]), true⟩)
        (by omega) (by omega) (by rw [bd]) (by rw [bd]; simp; omega) (by omega)
    refine ⟨g1, ?_, ?_, hl1, ?_, ?_, ?_⟩
    · rw [shiftLoop]
      simp only [hge, if_true, hm, hrd, hwr]
      exact hr
    · simp [hlen]
    · rw [hsl, bd]; simp
    · intro j
      rw [hpt j, bd]
      by_cases hj : j = i
      · subst hj
        have h1 : ¬ (pos ≤ j ∧ j ≤ j - 1) := by omega
        have h2 : pos ≤ j ∧ j ≤ j := by omega
        rw [if_neg h1, if_pos h2, List.getElem?_set_self hi, List.getElem?_eq_getElem hi1]
      · by_cases hin : pos ≤ j ∧ j ≤ i - 1
        · have h4 : pos ≤ j ∧ j ≤ i := by omega
          rw [if_pos hin, if_pos h4, List.getElem?_set_ne (by omega)]
        · have h4 : ¬ (pos ≤ j ∧ j ≤ i) := by omega
          rw [if_neg hin, if_neg h4, List.getElem?_set_ne (Ne.symm hj)]
    · intro q hq
      rw [hfr q hq, blockAt_set_ne _ hq]

theorem getElem?_insert_list (es : List T) (p : Nat) (v : T) (hp : p ≤ es.length) (j : Nat) :
    (es.take p ++ v :: es.drop p)[j]? =
      if j < p then es[j]? else if j = p then some v else es[j - 1]? := by
  have hlen : (es.take p).length = p := by simp [List.length_take]; omega
  by_cases h1 : j < p
  · simp only [h1, if_true]
    rw [List.getElem?_append_left (by omega), List.getElem?_take]
    simp [h1]
  · simp only [h1, if_false]
    rw [List.getElem?_append_right (by omega), hlen]
    by_cases h2 : j = p
    · subst h2
      simp
    · simp only [h2, if_false]
      obtain ⟨d, hd⟩ : ∃ d, j - p = d + 1 := ⟨j - p - 1, by omega⟩
      rw [hd, List.getElem?_cons_succ, List.getElem?_drop]
      congr 1
      omega

theorem holds_length {h : Heap T} {o : vector} {es : List T} (hh : Holds h o es) :
    es.length = o.mLength := by
  obtain ⟨⟨-, hlen, hle, -⟩, hes⟩ := hh
  have := congrArg List.length hes
  simp only [vector.elems, List.length_take, List.length_map] at this
  omega

theorem holds_slot {h : Heap T} {o : vector} {es : List T} (hh : Holds h o es) {j : Nat}
    (hj : j < o.mLength) : (blockAt h o.mData).slots[j]? = (es[j]?).map some := by
  have h1 := congrArg (fun l => l[j]?) hh.2
  simp only [vector.elems, List.getElem?_take, hj, if_true, List.getElem?_map] at h1
  exact h1

theorem insert_room_spec {h : Heap T} {o : vector} {es : List T} (p : Nat) (r : Ref T)
    (v : T) {fuel : Nat} (hh : Holds h o es) (hp1 : 1 ≤ p) (hpn : p < o.mLength)
    (hlt : o.mLength < o.mCapacity) (hfuel : o.mLength - p + 2 ≤ fuel)
    (hd : ∀ g1, shiftLoop o.mData p fuel o.mLength h = .ok g1 → g1.deref r = .ok (some v)) :
    ∃ h1, o.insert (fuel + 1) h p r = .ok (h1, ⟨o.mData, o.mLength + 1, o.mCapacity⟩) ∧
      Holds h1 ⟨o.mData, o.mLength + 1, o.mCapacity⟩ (es.take p ++ v :: es.drop p) ∧
      h1.length = h.length := by
  have hesl := holds_length hh
  obtain ⟨hl, hlen, hle, hcap⟩ := hh.1
  obtain ⟨g1, hr, hlen1, hl1, hsl, hpt, -⟩ :=
    shiftLoop_spec (p := o.mData) hp1 (o.mLength - p + 1) fuel o.mLength h (by omega)
      (by omega) hl (by omega) (by omega)
  have hpp := blockAt_live_lt hl1
  have hwr := write_ok (some v) hl1 (by omega : p < _)
  have hmod : (o.mLength + 1) % SIZE_MOD = o.mLength + 1 := Nat.mod_eq_of_lt (by omega)
  refine ⟨g1.set o.mData ⟨(blockAt g1 o.mData).slots.set p (some v), true⟩, ?_,
    ⟨⟨?_, ?_, ?_, hcap⟩, ?_⟩, ?_⟩
  · rw [vector.insert]
    have h0 : ¬ (p ≥ o.mLength) := by omega
    simp only [h0, if_false, hlt, if_true, hr, hd g1 hr, hwr, hmod]
  · simp [blockAt_set_self _ hpp]
  · simp [blockAt_set_self _ hpp, hsl, hlen]
  · simp only; omega
  · simp only [vector.elems, blockAt_set_self _ hpp]
    apply List.ext_getElem?
    intro j
    rw [List.getElem?_take, List.getElem?_map, getElem?_insert_list es p v (by omega) j]
    by_cases hj : j < o.mLength + 1
    · simp only [hj, if_true]
      by_cases hjp : j = p
      · subst hjp
        rw [List.getElem?_set_self (by omega)]
        simp
      · rw [List.getElem?_set_ne (Ne.symm hjp), hpt j]
        by_cases hlt2 : j < p
        · have h3 : ¬ (p ≤ j ∧ j ≤ o.mLength) := by omega
          rw [if_neg h3, if_pos hlt2]
          exact holds_slot hh (by omega)
        · have h3 : p ≤ j ∧ j ≤ o.mLength := by omega
          rw [if_pos h3, if_neg hlt2, if_neg hjp]
          exact holds_slot hh (by omega)
    · simp only [hj, if_false]
      have h3 : ¬ j < p := by omega
      have h4 : ¬ j = p := by omega
      rw [if_neg h3, if_neg h4, List.getElem?_eq_none (by omega)]
      rfl
  · simp [hlen1]

theorem insert_spec {h : Heap T} {o : vector} {es : List T} (p : Nat) (v : T) {fuel : Nat}
    (hh : Holds h o es) (hc1 : 1 ≤ o.mCapacity) (hc2 : 2 * o.mCapacity < SIZE_MOD)
    (hp1 : 1 ≤ p) (hpn : p < o.mLength) (hfuel : o.mLength + 3 ≤ fuel) :
    ∃ h1 o1, o.insert fuel h p (.val v) = .ok (h1, o1) ∧
      Holds h1 o1 (es.take p ++ v :: es.drop p) ∧ o1.mLength = o.mLength + 1 ∧
      o1.mCapacity = (if o.mLength < o.mCapacity then o.mCapacity else 2 * o.mCapacity) ∧
      h1.length ≤ h.length + 1 := by
  obtain ⟨f, rfl⟩ : ∃ f, fuel = f + 2 := ⟨fuel - 2, by omega⟩
  by_cases hlt : o.mLength < o.mCapacity
  · obtain ⟨h1, hr, hh1, hlen1⟩ := @insert_room_spec T h o es p (.val v) v (f + 1) hh hp1
      hpn hlt (by omega) (fun _ _ => rfl)
    exact ⟨h1, _, hr, hh1, rfl, by simp [hlt], by omega⟩
  · have hmod : o.mCapacity * 2 % SIZE_MOD = 2 * o.mCapacity := by
      rw [Nat.mod_eq_of_lt (by omega)]; omega
    obtain ⟨g1, hr, hlg, hb, -, -⟩ := reserve_grow (c := 2 * o.mCapacity) hh.1 (by omega)
    obtain ⟨g2, hr2, hwf1, hel1⟩ := reserve_grow_wf (c := 2 * o.mCapacity) hh.1 (by omega) hc2
    rw [hr] at hr2
    simp only [Res.ok.injEq, Prod.mk.injEq, and_true] at hr2
    subst hr2
    have hh1 : Holds g1 ⟨h.length, o.mLength, 2 * o.mCapacity⟩ es :=
      ⟨hwf1, by rw [hel1]; exact hh.2⟩
    have hle := hh.1.2.2.1
    obtain ⟨h2, hr3, hh2, hlen2⟩ :=
      @insert_room_spec T g1 ⟨h.length, o.mLength, 2 * o.mCapacity⟩ es p (.val v) v f hh1
        hp1 hpn (by simp only; omega) (by simp only; omega) (fun _ _ => rfl)
    refine ⟨h2, _, ?_, hh2, rfl, by simp [hlt], by omega⟩
    rw [vector.insert]
    have h0 : ¬ (p ≥ o.mLength) := by omega
    simp only [h0, if_false, hlt, hmod, hr]
    exact hr3

/-! ## The out-of-bounds read of `insert(0, v)` -/

theorem read_oob_fault {h : Heap T} {p i : Nat} (hl : (blockAt h p).live = true)
    (hi : (blockAt h p).slots.length ≤ i) : h.read p i = .fault .outOfBounds := by
  have hnone : (blockAt h p).slots[i]? = none := List.getElem?_eq_none hi
  simp [Heap.read, getElem?_of_live hl, hl, hnone]

theorem shiftLoop_zero_oob {p : Nat} : ∀ (i fuel : Nat) (g : Heap T),
    (blockAt g p).live = true → i < (blockAt g p).slots.length →
      (blockAt g p).slots.length < SIZE_MOD → i + 1 ≤ fuel →
      shiftLoop p 0 fuel i g = .fault .outOfBounds := by
  intro i
  induction i with
  | zero =>
    intro fuel g hl _ hM hfuel
    obtain ⟨f, rfl⟩ : ∃ f, fuel = f + 1 := ⟨fuel - 1, by omega⟩
    have hm : (0 + SIZE_MOD - 1) % SIZE_MOD = SIZE_MOD - 1 := by
      simp [SIZE_MOD]
    have hrd : g.read p (SIZE_MOD - 1) = .fault .outOfBounds :=
      read_oob_fault hl (by omega)
    rw [shiftLoop]
    simp only [ge_iff_le, Nat.zero_le, if_true, hm, hrd]
  | succ i ih =>
    intro fuel g hl hi hM hfuel
    obtain ⟨f, rfl⟩ : ∃ f, fuel = f + 1 := ⟨fuel - 1, by omega⟩
    have hpp := blockAt_live_lt hl
    have hm := size_pred_mod (by omega : 1 ≤ i + 1) (by omega)
    simp only [Nat.add_sub_cancel] at hm
    have hi1 : i < (blockAt g p).slots.length := by omega
    have hrd := read_ok hl (List.getElem?_eq_getElem hi1)
    have hwr := write_ok ((blockAt g p).slots[i]) hl hi
    have bd : blockAt (g.set p ⟨(blockAt g p).slots.set (i + 1) ((blockAt g p).slots[i]), true⟩)
        p = ⟨(blockAt g p).slots.set (i + 1) ((blockAt g p).slots[i]), true⟩ :=
      blockAt_set_self _ hpp
    rw [shiftLoop]
    simp only [ge_iff_le, Nat.zero_le, if_true, hm, hrd, hwr]
    exact ih f _ (by rw [bd]) (by rw [bd]; simp; omega) (by rw [bd]; simp; omega) (by omega)

theorem insert_zero_oob {h : Heap T} {o : vector} (v : Ref T) {fuel : Nat} (hwf : WF h o)
    (hpos : 0 < o.mLength) (hc2 : 2 * o.mCapacity < SIZE_MOD) (hfuel : o.mLength + 3 ≤ fuel) :
    o.insert fuel h 0 v = .fault .outOfBounds := by
  obtain ⟨f, rfl⟩ : ∃ f, fuel = f + 2 := ⟨fuel - 2, by omega⟩
  have h0 : ¬ (0 ≥ o.mLength) := by omega
  obtain ⟨hl, hlen, hle, hcap⟩ := hwf
  by_cases hlt : o.mLength < o.mCapacity
  · rw [vector.insert]
    simp only [h0, if_false, hlt, if_true,
      shiftLoop_zero_oob o.mLength (f + 1) h hl (by omega) (by omega) (by omega)]
  · have hmod : o.mCapacity * 2 % SIZE_MOD = 2 * o.mCapacity := by
      rw [Nat.mod_eq_of_lt (by omega)]; omega
    obtain ⟨g1, hr, hwf1, -⟩ :=
      reserve_grow_wf (c := 2 * o.mCapacity) ⟨hl, hlen, hle, hcap⟩ (by omega) hc2
    obtain ⟨hl1, hlen1, -, -⟩ := hwf1
    simp only at hl1 hlen1
    rw [vector.insert]
    simp only [h0, if_false, hlt, hmod, hr]
    rw [vector.insert]
    have hlt2 : o.mLength < 2 * o.mCapacity := by omega
    simp only [h0, if_false, hlt2, if_true,
      shiftLoop_zero_oob o.mLength f g1 hl1 (by omega) (by omega) (by omega)]

/-! ## Arguments that are elements of the vector itself -/

theorem read_released {h : Heap T} {p i : Nat} (hp : p < h.length)
    (hl : (blockAt h p).live = false) : h.read p i = .fault .useAfterFree := by
  have hg : h[p]? = some (blockAt h p) := by
    simp [blockAt, List.getElem?_eq_getElem hp]
  simp [Heap.read, hg, hl]

theorem push_back_dangling {h : Heap T} {o : vector} (i : Nat) {fuel : Nat} (hwf : WF h o)
    (hfull : o.mLength = o.mCapacity) (hc1 : 1 ≤ o.mCapacity)
    (hc2 : 2 * o.mCapacity < SIZE_MOD) (hfuel : 2 ≤ fuel) :
    o.push_back fuel h (.slot o.mData i) = .fault .useAfterFree := by
  obtain ⟨f, rfl⟩ : ∃ f, fuel = f + 2 := ⟨fuel - 2, by omega⟩
  have hpp := blockAt_live_lt hwf.1
  have hnlt : ¬ o.mLength < o.mCapacity := by omega
  have hmod : o.mCapacity * 2 % SIZE_MOD = 2 * o.mCapacity := by
    rw [Nat.mod_eq_of_lt (by omega)]; omega
  obtain ⟨g1, hr, hlg, -, hold, -⟩ := reserve_grow (c := 2 * o.mCapacity) hwf (by omega)
  have hrd : g1.read o.mData i = .fault .useAfterFree :=
    read_released (by omega) (by rw [hold])
  have hlt2 : o.mLength < 2 * o.mCapacity := by omega
  rw [vector.push_back]
  simp only [hnlt, if_false, hmod, hr]
  rw [vector.push_back]
  simp only [hlt2, if_true, Heap.deref, hrd]

theorem insert_dangling {h : Heap T} {o : vector} (p i : Nat) {fuel : Nat} (hwf : WF h o)
    (hfull : o.mLength = o.mCapacity) (hc2 : 2 * o.mCapacity < SIZE_MOD) (hp1 : 1 ≤ p)
    (hpn : p < o.mLength) (hfuel : o.mLength + 3 ≤ fuel) :
    o.insert fuel h p (.slot o.mData i) = .fault .useAfterFree := by
  obtain ⟨f, rfl⟩ : ∃ f, fuel = f + 2 := ⟨fuel - 2, by omega⟩
  have hpp := blockAt_live_lt hwf.1
  have hnlt : ¬ o.mLength < o.mCapacity := by omega
  have h0 : ¬ (p ≥ o.mLength) := by omega
  have hmod : o.mCapacity * 2 % SIZE_MOD = 2 * o.mCapacity := by
    rw [Nat.mod_eq_of_lt (by omega)]; omega
  obtain ⟨g1, hr, hlg, hnew, hold, -⟩ := reserve_grow (c := 2 * o.mCapacity) hwf (by omega)
  obtain ⟨-, hlen, hle, -⟩ := hwf
  obtain ⟨g2, hs, hlen2, -, -, -, hfr⟩ :=
    shiftLoop_spec (p := h.length) hp1 (o.mLength - p + 1) f o.mLength g1 (by omega)
      (by omega) (by rw [hnew]) (by rw [hnew]; simp; omega) (by omega)
  have hrd : g2.read o.mData i = .fault .useAfterFree :=
    read_released (by omega) (by rw [hfr _ (by omega), hold])
  have hlt2 : o.mLength < 2 * o.mCapacity := by omega
  rw [vector.insert]
  simp only [h0, if_false, hnlt, hmod, hr]
  rw [vector.insert]
  simp only [h0, if_false, hlt2, if_true, hs, Heap.deref, hrd]

theorem insert_aliased_room {h : Heap T} {o : vector} {es : List T} (p i : Nat) (x : T)
    {fuel : Nat} (hh : Holds h o es) (hp1 : 1 ≤ p) (hpi : p ≤ i) (hin : i < o.mLength)
    (hlt : o.mLength < o.mCapacity) (hx : es[i - 1]? = some x)
    (hfuel : o.mLength + 3 ≤ fuel) :
    ∃ h1 o1, o.insert fuel h p (.slot o.mData i) = .ok (h1, o1) ∧
      Holds h1 o1 (es.take p ++ x :: es.drop p) := by
  obtain ⟨f, rfl⟩ : ∃ f, fuel = f + 1 := ⟨fuel - 1, by omega⟩
  obtain ⟨hl, hlen, hle, hcap⟩ := hh.1
  have hd : ∀ g1, shiftLoop o.mData p f o.mLength h = .ok g1 →
      g1.deref (.slot o.mData i) = .ok (some x) := by
    intro g1 hs
    obtain ⟨g2, hs2, -, hl2, -, hpt, -⟩ :=
      shiftLoop_spec (p := o.mData) hp1 (o.mLength - p + 1) f o.mLength h (by omega)
        (by omega) hl (by omega) (by omega)
    rw [hs] at hs2
    obtain rfl := Res.ok.inj hs2
    have hslot := hpt i
    rw [if_pos (by omega : p ≤ i ∧ i ≤ o.mLength), holds_slot hh (by omega), hx] at hslot
    exact read_ok hl2 hslot
  obtain ⟨h1, hr, hh1, -⟩ :=
    @insert_room_spec T h o es p (.slot o.mData i) x f hh hp1 (by omega) hlt (by omega) hd
  exact ⟨h1, _, hr, hh1⟩

/-! ## `pop_back` -/

theorem pop_back_pos {o : vector} (hpos : 0 < o.mLength) (hM : o.mLength < SIZE_MOD) :
    o.pop_back = ⟨o.mData, o.mLength - 1, o.mCapacity⟩ := by
  unfold vector.pop_back
  simp only [gt_iff_lt, hpos, if_true, size_pred_mod (by omega : 1 ≤ o.mLength) hM]

theorem pop_back_zero {o : vector} (hz : o.mLength = 0) : o.pop_back = o := by
  unfold vector.pop_back
  simp [hz]

theorem pop_back_holds {h : Heap T} {o : vector} {es : List T} (hh : Holds h o es) :
    Holds h o.pop_back (es.take (o.mLength - 1)) := by
  have hesl := holds_length hh
  obtain ⟨⟨hl, hlen, hle, hcap⟩, hes⟩ := hh
  by_cases hpos : 0 < o.mLength
  · rw [pop_back_pos hpos (by omega)]
    refine ⟨⟨hl, hlen, by simp only; omega, hcap⟩, ?_⟩
    simp only [vector.elems] at hes ⊢
    rw [List.map_take, ← hes, List.take_take]
    congr 1
    omega
  · have hz : o.mLength = 0 := by omega
    rw [pop_back_zero hz]
    refine ⟨⟨hl, hlen, hle, hcap⟩, ?_⟩
    have he : es = [] := List.length_eq_zero.mp (by omega)
    rw [hes, he, hz]
    rfl

/-! ## `push_back` of an object outside the heap -/

theorem push_back_appends_value {h : Heap T} {o : vector} {es : List T} (v : T) {fuel : Nat}
    (hh : Holds h o es) (hc1 : 1 ≤ o.capacity) (hc2 : 2 * o.capacity < SIZE_MOD)
    (hfuel : 2 ≤ fuel) :
    (∃ h1 o1, o.push_back fuel h (.val v) = .ok (h1, o1) ∧ Holds h1 o1 (es ++ [v]) ∧
      o1.size = o.size + 1 ∧
      o1.capacity = (if o.size < o.capacity then o.capacity else 2 * o.capacity)) ∧
    (∃ h1 o1, o.push_back_move fuel h (.val v) = .ok (h1, o1) ∧ Holds h1 o1 (es ++ [v]) ∧
      o1.size = o.size + 1 ∧
      o1.capacity = (if o.size < o.capacity then o.capacity else 2 * o.capacity)) := by
  obtain ⟨h1, o1, hr, hh1, hl, hc, -⟩ := push_back_spec v hh hc1 hc2 hfuel
  exact ⟨⟨h1, o1, hr, hh1, hl, hc⟩, ⟨h1, o1, by rw [push_back_move_eq]; exact hr, hh1, hl, hc⟩⟩

/-! ## `insert` of an object outside the heap -/

theorem insert_middle_value (h : Heap T) (o : vector) (es : List T) (p : Nat) (v : T)
    (fuel : Nat) (hh : Holds h o es) (hc1 : 1 ≤ o.capacity)
    (hc2 : 2 * o.capacity < SIZE_MOD) (hp1 : 1 ≤ p) (hpn : p < o.size)
    (hfuel : o.size + 3 ≤ fuel) :
    (∃ h1 o1, o.insert fuel h p (.val v) = .ok (h1, o1) ∧
      Holds h1 o1 (es.take p ++ v :: es.drop p) ∧ o1.size = o.size + 1 ∧
      o1.capacity = (if o.size < o.capacity then o.capacity else 2 * o.capacity) ∧
      o1.index h1 p = .ok (some v)) ∧
    (o.size < o.capacity → ∃ g, shiftLoop o.mData p (fuel - 1) o.size h = .ok g ∧
      (blockAt g o.mData).slots[p]? = (blockAt h o.mData).slots[p - 1]? ∧
      (blockAt g o.mData).slots[p]? = (es[p - 1]?).map some) := by
  have hpnb : p < o.mLength := hpn
  have hfuelb : o.mLength + 3 ≤ fuel := hfuel
  have hesl := holds_length hh
  constructor
  · obtain ⟨h1, o1, hr, hh1, hs, hc, -⟩ := insert_spec p v hh hc1 hc2 hp1 hpnb hfuelb
    refine ⟨h1, o1, hr, hh1, hs, hc, ?_⟩
    have hlen : p < (es.take p ++ v :: es.drop p).length := by
      simp [List.length_take]; omega
    have hi := holds_index hh1 hlen
    have hv : (es.take p ++ v :: es.drop p)[p]? = some v := by
      rw [getElem?_insert_list es p v (by omega) p]
      simp
    have hget : (es.take p ++ v :: es.drop p).get ⟨p, hlen⟩ = v := by
      have h2 := List.getElem?_eq_getElem hlen
      rw [hv] at h2
      exact (Option.some.inj h2).symm
    rw [hi, hget]
  · intro hlt
    obtain ⟨hl, hlen, hle, hcap⟩ := hh.1
    obtain ⟨g, hr, -, -, -, hpt, -⟩ :=
      shiftLoop_spec (p := o.mData) hp1 (o.mLength - p + 1) (fuel - 1) o.mLength h (by omega)
        (by omega) hl (by have : o.mLength < o.mCapacity := hlt; omega) (by omega)
    have hslot := hpt p
    have hin : p ≤ p ∧ p ≤ o.mLength := by omega
    rw [if_pos hin] at hslot
    exact ⟨g, hr, hslot, by rw [hslot]; exact holds_slot hh (by omega)⟩

/-! ## Claims -/

/-- C1 (defect in `insert`): on a non-empty vector, `insert(0, v)` never
returns, whatever `v` is bound to.  With `aPosition = 0` the loop test
`i >= aPosition` holds for every `size_type` value of `i`, so the shift loop
can only stop at a fault. -/
theorem C1_insert_front_never_returns (fuel : Nat) (h : Heap T) (o : vector) (v : Ref T)
    (hpos : 0 < o.size) : ∀ r, o.insert fuel h 0 v ≠ .ok r :=
  fun r => insert_zero_never fuel h o v r hpos

/-- C1 at `v {1, 2, 3}; v.insert(0, 7)`: the run stops at the out-of-bounds
read of `mData[i - 1]` with `i = 0`. -/
theorem C1_insert_front_witness :
    0 < exVec.size ∧ (∀ r, exVec.insert 9 exHeap 0 (.val 7) ≠ .ok r) ∧
      exVec.insert 9 exHeap 0 (.val 7) = .fault .outOfBounds :=
  ⟨by decide, C1_insert_front_never_returns 9 exHeap exVec (.val 7) (by decide), by decide⟩

/-- C2: move construction from `a`, and move assignment of `a` into any
distinct vector `b`, give the target the size, capacity and values of `a` and
leave `a` with size 0 and capacity 1; a following `a.push_back(x)` returns with
`a.size() == 1` and `a[0] == x`, the target still holding the values. -/
theorem C2_move_resets_source (h : Heap T) (a : vector) (es : List T) (x : T) (fuel : Nat)
    (hA : Holds h a es) (hfuel : 1 ≤ fuel) :
    (∃ h1 b1 a1, vector.ctor_move h a = (h1, b1, a1) ∧ Holds h1 b1 es ∧
      b1.size = a.size ∧ b1.capacity = a.capacity ∧ a1.size = 0 ∧ a1.capacity = 1 ∧
      ∃ h2 a2, a1.push_back fuel h1 (.val x) = .ok (h2, a2) ∧ a2.size = 1 ∧
        a2.index h2 0 = .ok (some x) ∧ Holds h2 a2 [x] ∧ Holds h2 b1 es) ∧
    (∀ (b : vector) (aAddr bAddr : Nat), WF h b → b.mData ≠ a.mData → bAddr ≠ aAddr →
      ∃ h1 b1 a1, vector.assign_move h bAddr aAddr b a = .ok (h1, b1, a1) ∧ Holds h1 b1 es ∧
        b1.size = a.size ∧ b1.capacity = a.capacity ∧ a1.size = 0 ∧ a1.capacity = 1 ∧
        ∃ h2 a2, a1.push_back fuel h1 (.val x) = .ok (h2, a2) ∧ a2.size = 1 ∧
          a2.index h2 0 = .ok (some x) ∧ Holds h2 a2 [x] ∧ Holds h2 b1 es) := by
  have hpa := blockAt_live_lt hA.1.1
  constructor
  · have hb1 : Holds (h ++ [(⟨List.replicate 1 none, true⟩ : Block T)])
        ⟨a.mData, a.mLength, a.mCapacity⟩ es :=
      holds_of_block_eq (a := a) hA (blockAt_append_lt _ hpa)
    refine ⟨h ++ [(⟨List.replicate 1 none, true⟩ : Block T)],
      ⟨a.mData, a.mLength, a.mCapacity⟩, ⟨h.length, 0, 1⟩, rfl, hb1, rfl, rfl, rfl, rfl, ?_⟩
    exact push_back_after_move x hfuel fresh_default_holds rfl rfl hb1
      (by simp only; omega)
  · intro b aAddr bAddr hB hdist haddr
    have hpb := blockAt_live_lt hB.1
    have hf := free_ok hB.1
    have hb1 : Holds ((h.set b.mData ⟨(blockAt h b.mData).slots, false⟩) ++
        [(⟨List.replicate 1 none, true⟩ : Block T)]) ⟨a.mData, a.mLength, a.mCapacity⟩ es := by
      apply holds_of_block_eq (a := a) hA
      rw [blockAt_append_lt _ (by simpa using hpa), blockAt_set_ne _ (Ne.symm hdist)]
    refine ⟨(h.set b.mData ⟨(blockAt h b.mData).slots, false⟩) ++
        [(⟨List.replicate 1 none, true⟩ : Block T)], ⟨a.mData, a.mLength, a.mCapacity⟩,
      ⟨(h.set b.mData ⟨(blockAt h b.mData).slots, false⟩).length, 0, 1⟩, ?_, hb1, rfl, rfl,
      rfl, rfl, ?_⟩
    · unfold vector.assign_move
      simp only [ne_eq, haddr, not_false_eq_true, if_true, hf, Heap.alloc, DEFAULT_CAPACITY]
    · exact push_back_after_move x hfuel fresh_default_holds rfl rfl hb1
        (by simp only [List.length_set]; omega)

/-- C2 at `v {1, 2, 3}`: moved into a new vector when it is the only vector
of the heap, and moved by assignment into `w {7}`. -/
theorem C2_move_witness :
    Holds exHeap exVec [1, 2, 3] ∧
      (∃ h1 b1 a1, vector.ctor_move exHeap exVec = (h1, b1, a1) ∧ Holds h1 b1 [1, 2, 3] ∧
        b1.size = 3 ∧ b1.capacity = 3 ∧ a1.size = 0 ∧ a1.capacity = 1 ∧
        ∃ h2 a2, a1.push_back 1 h1 (.val 9) = .ok (h2, a2) ∧ a2.size = 1 ∧
          a2.index h2 0 = .ok (some 9)) ∧
      Holds exHeap2 exVec [1, 2, 3] ∧ WF exHeap2 exVec2 ∧
      (∃ h1 b1 a1, vector.assign_move exHeap2 1 0 exVec2 exVec = .ok (h1, b1, a1) ∧
        Holds h1 b1 [1, 2, 3] ∧ a1.size = 0 ∧ a1.capacity = 1 ∧
        ∃ h2 a2, a1.push_back 1 h1 (.val 9) = .ok (h2, a2) ∧ a2.size = 1 ∧
          a2.index h2 0 = .ok (some 9)) := by
  obtain ⟨⟨g1, c1, d1, gr, gb, gs, gc, gs0, gc1, g2, d2, gp, gs2, gi, -, -⟩, -⟩ :=
    C2_move_resets_source exHeap exVec [1, 2, 3] 9 1 (by decide) (by decide)
  obtain ⟨-, hassign⟩ :=
    C2_move_resets_source exHeap2 exVec [1, 2, 3] 9 1 (by decide) (by decide)
  obtain ⟨h1, b1, a1, hr, hb, -, -, hs, hc, h2, a2, hp, hs2, hi, -, -⟩ :=
    hassign exVec2 0 1 (by decide) (by decide) (by decide)
  exact ⟨by decide, ⟨g1, c1, d1, gr, gb, gs, gc, gs0, gc1, g2, d2, gp, gs2, gi⟩, by decide,
    by decide, ⟨h1, b1, a1, hr, hb, hs, hc, h2, a2, hp, hs2, hi⟩⟩

/-- C3: the copy constructor gives the new vector the size, the capacity and
the values of the source in a block of its own, and no sequence of mutating
calls on the copy changes the size, capacity or values of the source. -/
theorem C3_copy_is_independent (h : Heap T) (a : vector) (es : List T) (hA : Holds h a es) :
    ∃ h1 b, vector.ctor_copy h a = .ok (h1, b) ∧ b.size = a.size ∧
      b.capacity = a.capacity ∧ Holds h1 b es ∧ Holds h1 a es ∧
      (∀ i (hi : i < es.length), b.index h1 i = .ok (some (es.get ⟨i, hi⟩)) ∧
        a.index h1 i = .ok (some (es.get ⟨i, hi⟩))) ∧
      ∀ (fuel : Nat) (ms : List (Mutation T)) (h2 : Heap T) (b2 : vector),
        applyAll fuel h1 b ms = .ok (h2, b2) →
          Holds h2 a es ∧ a.elems h2 = a.elems h ∧ b2.mData ≠ a.mData := by
  obtain ⟨h1, hr, hlen, hb, hfr⟩ := ctor_copy_spec hA
  have hpa := blockAt_live_lt hA.1.1
  have ha1 : Holds h1 a es := holds_of_block_eq hA (hfr _ hpa)
  refine ⟨h1, _, hr, rfl, rfl, hb, ha1, fun i hi => ⟨holds_index hb hi, holds_index ha1 hi⟩, ?_⟩
  intro fuel ms h2 b2 hm
  obtain ⟨-, hd, hblk⟩ := applyAll_frame ms _ _ _ hm
  have e2 : blockAt h2 a.mData = blockAt h1 a.mData :=
    hblk _ (by omega) (by simp only; omega)
  refine ⟨holds_of_block_eq ha1 e2, ?_, ?_⟩
  · simp only [vector.elems, e2, hfr _ hpa]
  · simp only at hd
    rcases hd with hd | hd <;> omega

/-- C3 at `v {1, 2, 3}`: the copy is mutated by `push_back(9)`,
`insert(1, v[2])` (an argument bound to an element of the source) and
`copy[0] = 5`. -/
theorem C3_copy_witness :
    Holds exHeap exVec [1, 2, 3] ∧
      ∃ h1 b h2 b2, vector.ctor_copy exHeap exVec = .ok (h1, b) ∧
        applyAll 9 h1 b [.push_back (.val 9), .insert 1 (.slot 0 2), .index_assign 0 5] =
          .ok (h2, b2) ∧
        Holds h2 b2 [5, 3, 2, 3, 9] ∧ Holds h2 exVec [1, 2, 3] := by
  refine ⟨by decide, ?_⟩
  obtain ⟨h1, b, hr, -, -, -, -, -, hfr⟩ :=
    C3_copy_is_independent exHeap exVec [1, 2, 3] (by decide)
  have hc : vector.ctor_copy exHeap exVec =
      .ok ([⟨[some 1, some 2, some 3], true⟩, ⟨[some 1, some 2, some 3], true⟩], ⟨1, 3, 3⟩) := by
    decide
  rw [hc] at hr
  simp only [Res.ok.injEq, Prod.mk.injEq] at hr
  obtain ⟨rfl, rfl⟩ := hr
  have hm : applyAll 9 ([⟨[some 1, some 2, some 3], true⟩, ⟨[some 1, some 2, some 3], true⟩] :
      Heap Nat) ⟨1, 3, 3⟩ [.push_back (.val 9), .insert 1 (.slot 0 2), .index_assign 0 5] =
      .ok ([⟨[some 1, some 2, some 3], true⟩, ⟨[some 1, some 2, some 3], false⟩,
        ⟨[some 5, some 3, some 2, some 3, some 9, none], true⟩], ⟨2, 5, 6⟩) := by
    decide
  exact ⟨_, _, _, _, hc, hm, by decide, (hfr 9 _ _ _ hm).1⟩

/-- C4 (defect in copy assignment): between distinct vectors, `a = b` releases
the storage of `a` and allocates nothing.  With a non-empty source the first
element is assigned into the released block; with an empty source the call
returns with `mData` still naming the released block. -/
theorem C4_assign_copy_writes_released_storage (h : Heap T) (a b : vector)
    (aAddr bAddr : Nat) (hA : WF h a) (hB : WF h b) (hdist : a.mData ≠ b.mData)
    (haddr : aAddr ≠ bAddr) :
    (0 < b.size → vector.assign_copy h aAddr bAddr a b = .fault .useAfterFree) ∧
    (∀ r, vector.assign_copy h aAddr bAddr a b = .ok r →
      r.1.length = h.length ∧ r.2.mData = a.mData ∧ (blockAt r.1 r.2.mData).live = false) := by
  have hpa := blockAt_live_lt hA.1
  have hf := free_ok hA.1
  have hbb : blockAt (h.set a.mData ⟨(blockAt h a.mData).slots, false⟩) b.mData =
      blockAt h b.mData := blockAt_set_ne _ (Ne.symm hdist)
  have hba : blockAt (h.set a.mData ⟨(blockAt h a.mData).slots, false⟩) a.mData =
      ⟨(blockAt h a.mData).slots, false⟩ := blockAt_set_self _ hpa
  have key : 0 < b.mLength → vector.assign_copy h aAddr bAddr a b = .fault .useAfterFree := by
    intro hpos
    obtain ⟨k, hk⟩ : ∃ k, b.mLength = k + 1 := ⟨b.mLength - 1, by omega⟩
    obtain ⟨hl, hlen, hle, -⟩ := hB
    have hi : 0 < (blockAt h b.mData).slots.length := by omega
    have hrd := read_ok (h := h.set a.mData ⟨(blockAt h a.mData).slots, false⟩) (p := b.mData)
      (i := 0) (x := (blockAt h b.mData).slots[0]) (by rw [hbb]; exact hl)
      (by rw [hbb]; exact List.getElem?_eq_getElem hi)
    have hg : (h.set a.mData ⟨(blockAt h a.mData).slots, false⟩)[a.mData]? =
        some ⟨(blockAt h a.mData).slots, false⟩ := by
      simp [hpa]
    have hwr : Heap.write (h.set a.mData ⟨(blockAt h a.mData).slots, false⟩) a.mData 0
        ((blockAt h b.mData).slots[0]) = Res.fault Fault.useAfterFree := by
      simp [Heap.write, hg]
    unfold vector.assign_copy
    simp only [ne_eq, haddr, not_false_eq_true, if_true, hf, hk, copyLoop, hrd, hwr]
  refine ⟨key, ?_⟩
  intro r hr
  by_cases hpos : 0 < b.mLength
  · rw [key hpos] at hr
    exact absurd hr (by simp)
  · have h0 : b.mLength = 0 := by omega
    unfold vector.assign_copy at hr
    simp only [ne_eq, haddr, not_false_eq_true, if_true, hf, h0, copyLoop, Res.ok.injEq] at hr
    subst hr
    exact ⟨by simp, rfl, by simp only [hba]⟩

/-- C4 at `w {7}; v {1, 2, 3}; w = v` and at `w = u` with `u` empty. -/
theorem C4_assign_copy_witness :
    WF exHeap2 exVec2 ∧ WF exHeap2 exVec ∧
      vector.assign_copy exHeap2 1 0 exVec2 exVec = .fault .useAfterFree ∧
      vector.assign_copy exHeap2 1 0 exVec2 (vector.clear exVec) =
        .ok ([⟨[some 1, some 2, some 3], true⟩, ⟨[some 7], false⟩], ⟨1, 0, 3⟩) :=
  ⟨by decide, by decide,
    (C4_assign_copy_writes_released_storage exHeap2 exVec2 exVec 1 0 (by decide) (by decide)
      (by decide) (by decide)).1 (by decide), by decide⟩

/-- C5 (defect in `push_back`): the argument is held by reference across
`reserve`.  On a full vector, `push_back(v[i])` with an element of the vector
itself reads the argument, in the retried call, from the block that `reserve`
has released; both forms of `push_back` do so. -/
theorem C5_push_back_own_element_dangles (h : Heap T) (o : vector) (i fuel : Nat)
    (hwf : WF h o) (hfull : o.size = o.capacity) (hc1 : 1 ≤ o.capacity)
    (hc2 : 2 * o.capacity < SIZE_MOD) (hfuel : 2 ≤ fuel) :
    o.push_back fuel h (.slot o.mData i) = .fault .useAfterFree ∧
    o.push_back_move fuel h (.slot o.mData i) = .fault .useAfterFree := by
  have hd := push_back_dangling i hwf hfull hc1 hc2 hfuel
  exact ⟨hd, by rw [push_back_move_eq]; exact hd⟩

/-- C5 at `v {1, 2, 3}; v.push_back(v[0])`: the vector is full, the call stops
at the read of the released block instead of giving `[1, 2, 3, 1]`. -/
theorem C5_push_back_own_element_witness :
    WF exHeap exVec ∧ exVec.size = exVec.capacity ∧
      exVec.push_back 2 exHeap (.slot exVec.mData 0) = .fault .useAfterFree ∧
      exVec.push_back_move 2 exHeap (.slot exVec.mData 0) = .fault .useAfterFree := by
  have hc := C5_push_back_own_element_dangles exHeap exVec 0 2 (by decide) (by decide)
    (by decide) (by decide) (by decide)
  exact ⟨by decide, by decide, hc.1, hc.2⟩

/-- C7 (defect): `vector(0, v)` and `vector({})` have `capacity() == 0`. -/
theorem C7_zero_capacity_constructed (h : Heap T) (v : T) :
    (∃ h1 o, vector.ctor_count h 0 v = .ok (h1, o) ∧ o.capacity = 0 ∧ WF h1 o) ∧
    (∃ h1 o, vector.ctor_init_list h ([] : List T) = .ok (h1, o) ∧ o.capacity = 0 ∧
      WF h1 o) := by
  have hwf : WF (h ++ [(⟨List.replicate 0 none, true⟩ : Block T)]) ⟨h.length, 0, 0⟩ :=
    ⟨by simp [blockAt_append_self], by simp [blockAt_append_self], by simp,
      by simp [SIZE_MOD]⟩
  constructor
  · exact ⟨_, _, rfl, rfl, hwf⟩
  · refine ⟨h ++ [(⟨List.replicate 0 none, true⟩ : Block T)], ⟨h.length, 0, 0⟩, ?_, rfl, hwf⟩
    simp [vector.ctor_init_list, Heap.alloc, stdCopy]

/-- C8: `size() ≤ capacity()` holds after every constructor, and every
mutating call (`reserve`, both forms of `push_back`, `insert`, `pop_back`,
`clear`, indexed write, copy assignment, move assignment) that returns on
vectors satisfying it leaves it true of the target and, for a move, of the
source. -/
theorem C8_size_le_capacity :
    (∀ (h : Heap T),
      (vector.ctor_default h).2.size ≤ (vector.ctor_default h).2.capacity) ∧
    (∀ (h : Heap T) (n : Nat) (v : T) r, vector.ctor_count h n v = .ok r →
      r.2.size ≤ r.2.capacity) ∧
    (∀ (h : Heap T) (l : List T) r, vector.ctor_init_list h l = .ok r →
      r.2.size ≤ r.2.capacity) ∧
    (∀ (h : Heap T) (a : vector) r, a.size ≤ a.capacity → vector.ctor_copy h a = .ok r →
      r.2.size ≤ r.2.capacity) ∧
    (∀ (h : Heap T) (a : vector), a.size ≤ a.capacity →
      (vector.ctor_move h a).2.1.size ≤ (vector.ctor_move h a).2.1.capacity ∧
      (vector.ctor_move h a).2.2.size ≤ (vector.ctor_move h a).2.2.capacity) ∧
    (∀ (fuel : Nat) (h : Heap T) (o : vector) (m : Mutation T) r, o.size ≤ o.capacity →
      m.apply fuel h o = .ok r → r.2.size ≤ r.2.capacity) ∧
    (∀ (h : Heap T) (x y : Nat) (a b : vector) r, a.size ≤ a.capacity →
      b.size ≤ b.capacity → vector.assign_copy h x y a b = .ok r →
      r.2.size ≤ r.2.capacity) ∧
    (∀ (h : Heap T) (x y : Nat) (a b : vector) r, a.size ≤ a.capacity →
      b.size ≤ b.capacity → vector.assign_move h x y a b = .ok r →
      r.2.1.size ≤ r.2.1.capacity ∧ r.2.2.size ≤ r.2.2.capacity) := by
  refine ⟨?_, ?_, ?_, ?_, ?_, ?_, ?_, ?_⟩
  · intro h
    simp [vector.ctor_default, vector.size, vector.capacity, DEFAULT_CAPACITY]
  · intro h n v r hr
    unfold vector.ctor_count at hr
    split at hr
    · simp at hr
    · simp only [Res.ok.injEq] at hr
      subst hr
      exact le_refl _
  · intro h l r hr
    unfold vector.ctor_init_list at hr
    split at hr
    · simp at hr
    · simp only [Res.ok.injEq] at hr
      subst hr
      exact le_refl _
  · intro h a r ha hr
    unfold vector.ctor_copy at hr
    split at hr
    · simp at hr
    · simp only [Res.ok.injEq] at hr
      subst hr
      exact ha
  · intro h a ha
    exact ⟨ha, by simp [vector.ctor_move, vector.size, vector.capacity, DEFAULT_CAPACITY]⟩
  · intro fuel h o m r ho hr
    exact apply_le ho hr
  · intro h x y a b r ha hb hr
    unfold vector.assign_copy at hr
    split at hr
    · split at hr
      · simp at hr
      · split at hr
        · simp at hr
        · simp only [Res.ok.injEq] at hr
          subst hr
          exact hb
    · simp only [Res.ok.injEq] at hr
      subst hr
      exact ha
  · intro h x y a b r ha hb hr
    unfold vector.assign_move at hr
    split at hr
    · split at hr
      · simp at hr
      · simp only [Res.ok.injEq] at hr
        subst hr
        exact ⟨hb, by simp [vector.size, vector.capacity, DEFAULT_CAPACITY]⟩
    · simp only [Res.ok.injEq] at hr
      subst hr
      exact ⟨ha, hb⟩

/-- C8 at `v {1, 2, 3}`: `insert(1, 7)` returns `[1, 7, 2, 3]` with size 4 and
capacity 6, and move assignment into `w {7}` returns with sizes 3 and 0. -/
theorem C8_size_le_capacity_witness :
    exVec.size ≤ exVec.capacity ∧
      exVec.insert 9 exHeap 1 (.val 7) =
        .ok ([⟨[some 1, some 2, some 3], false⟩,
          ⟨[some 1, some 7, some 2, some 3, none, none], true⟩], ⟨1, 4, 6⟩) ∧
      (4 : Nat) ≤ 6 ∧
      vector.assign_move exHeap2 1 0 exVec2 exVec =
        .ok ([⟨[some 1, some 2, some 3], true⟩, ⟨[some 7], false⟩, ⟨[none], true⟩],
          ⟨0, 3, 3⟩, ⟨2, 0, 1⟩) ∧
      (3 : Nat) ≤ 3 ∧ (0 : Nat) ≤ 1 := by
  have hi : (Mutation.insert 1 (.val 7)).apply 9 exHeap exVec =
      .ok ([⟨[some 1, some 2, some 3], false⟩,
        ⟨[some 1, some 7, some 2, some 3, none, none], true⟩], ⟨1, 4, 6⟩) := by decide
  have hm : vector.assign_move exHeap2 1 0 exVec2 exVec =
      .ok ([⟨[some 1, some 2, some 3], true⟩, ⟨[some 7], false⟩, ⟨[none], true⟩],
        ⟨0, 3, 3⟩, ⟨2, 0, 1⟩) := by decide
  have h1 := (C8_size_le_capacity (T := Nat)).2.2.2.2.2.1 9 exHeap exVec
    (.insert 1 (.val 7)) _
    (by decide) hi
  have h2 := (C8_size_le_capacity (T := Nat)).2.2.2.2.2.2.2 exHeap2 1 0 exVec2 exVec _
    (by decide) (by decide) hm
  exact ⟨by decide, hi, h1, hm, h2.1, h2.2⟩

/-- C9 (defect): on `vector(0, v)` and on `vector({})` the call `push_back(x)`
does not return: `reserve(0 * 2)` changes nothing and the call repeats itself
on the same state, whatever the fuel. -/
theorem C9_push_back_on_zero_capacity_diverges (h : Heap T) (v : T) (x : Ref T)
    (fuel : Nat) :
    (∃ h1 o, vector.ctor_count h 0 v = .ok (h1, o) ∧
      o.push_back fuel h1 x = .fault .outOfFuel) ∧
    (∃ h1 o, vector.ctor_init_list h ([] : List T) = .ok (h1, o) ∧
      o.push_back fuel h1 x = .fault .outOfFuel) := by
  constructor
  · exact ⟨_, _, rfl, push_back_stuck fuel _ _ x (by simp) (by simp)⟩
  · refine ⟨h ++ [(⟨List.replicate 0 none, true⟩ : Block T)], ⟨h.length, 0, 0⟩, ?_,
      push_back_stuck fuel _ _ x (by simp) (by simp)⟩
    simp [vector.ctor_init_list, Heap.alloc, stdCopy]

/-- C10: on a vector holding `es`, `reserve(c)` with `c > capacity()` returns
with `capacity() == c`, the same size and the same values; with
`c ≤ capacity()` it returns the state unchanged; and whenever `reserve`
returns, the capacity has not decreased. -/
theorem C10_reserve (h : Heap T) (o : vector) (es : List T) (c : Nat) (hh : Holds h o es)
    (hc : c < SIZE_MOD) :
    (o.capacity < c → ∃ h1 o1, o.reserve h c = .ok (h1, o1) ∧ o1.capacity = c ∧
      o1.size = o.size ∧ Holds h1 o1 es ∧ o1.elems h1 = o.elems h) ∧
    (c ≤ o.capacity → o.reserve h c = .ok (h, o)) ∧
    (∀ r, o.reserve h c = .ok r → o.capacity ≤ r.2.capacity) := by
  refine ⟨?_, fun hle => reserve_noop h o hle, fun r hr => (reserve_length hr).2⟩
  intro hlt
  obtain ⟨h1, hr, hwf, hel⟩ := reserve_grow_wf hh.1 hlt hc
  exact ⟨h1, _, hr, rfl, rfl, ⟨hwf, by rw [hel]; exact hh.2⟩, hel⟩

/-- C10 at `v {1, 2, 3}`: `reserve(5)` grows to five slots, `reserve(2)` changes
nothing. -/
theorem C10_reserve_witness :
    Holds exHeap exVec [1, 2, 3] ∧
      (∃ h1 o1, exVec.reserve exHeap 5 = .ok (h1, o1) ∧ o1.capacity = 5 ∧ o1.size = 3 ∧
        Holds h1 o1 [1, 2, 3]) ∧
      exVec.reserve exHeap 2 = .ok (exHeap, exVec) := by
  have hw := C10_reserve exHeap exVec [1, 2, 3] 5 (by decide) (by decide)
  have hn := C10_reserve exHeap exVec [1, 2, 3] 2 (by decide) (by decide)
  obtain ⟨h1, o1, hr, hcap, hsz, hh1, -⟩ := hw.1 (by decide)
  exact ⟨by decide, ⟨h1, o1, hr, hcap, hsz, hh1⟩, hn.2.1 (by decide)⟩

/-- C11: for a position `p ≥ size()`, `insert(p, v)` is the call
`push_back(v)` with the same argument: it has the outcome of `push_back(v)`
(one call deeper), so whenever both return they return the same heap and the
same fields; and on a vector holding `es` with `capacity() ≥ 1` and
`2 * capacity()` a `size_type` value both do return for a value `x`, with the
values `es ++ [x]`. -/
theorem C11_insert_past_end_is_push_back (fuel : Nat) (h : Heap T) (o : vector) (p : Nat)
    (v : Ref T) (hp : o.size ≤ p) :
    o.insert (fuel + 1) h p v = o.push_back fuel h v ∧
    (∀ f g r1 r2, o.insert f h p v = .ok r1 → o.push_back g h v = .ok r2 → r1 = r2) ∧
    (∀ es (x : T), Holds h o es → 1 ≤ o.capacity → 2 * o.capacity < SIZE_MOD → 2 ≤ fuel →
      ∃ r, o.insert (fuel + 1) h p (.val x) = .ok r ∧ o.push_back fuel h (.val x) = .ok r ∧
        Holds r.1 r.2 (es ++ [x])) := by
  have hge : p ≥ o.mLength := hp
  have key : ∀ f (w : Ref T), o.insert (f + 1) h p w = o.push_back f h w := by
    intro f w
    rw [vector.insert]
    simp only [hge, if_true]
  refine ⟨key fuel v, ?_, ?_⟩
  · intro f g r1 r2 hi hpb
    cases f with
    | zero => simp [vector.insert] at hi
    | succ f =>
      rw [key f v] at hi
      have e1 := push_back_mono_le (Nat.le_max_left f g) hi
      have e2 := push_back_mono_le (Nat.le_max_right f g) hpb
      rw [e1] at e2
      exact Res.ok.inj e2
  · intro es x hh hc1 hc2 hfuel
    obtain ⟨h1, o1, hr, hh1, -, -, -⟩ := push_back_spec x hh hc1 hc2 hfuel
    exact ⟨(h1, o1), by rw [key fuel]; exact hr, hr, hh1⟩

/-- C11 at `v {1, 2, 3}`: `v.insert(5, 4)` and `v.push_back(4)` both give
`[1, 2, 3, 4]` with capacity 6. -/
theorem C11_insert_past_end_witness :
    exVec.size ≤ 5 ∧
      exVec.insert 3 exHeap 5 (.val 4) = exVec.push_back 2 exHeap (.val 4) ∧
      exVec.push_back 2 exHeap (.val 4) =
        .ok ([⟨[some 1, some 2, some 3], false⟩,
          ⟨[some 1, some 2, some 3, some 4, none, none], true⟩], ⟨1, 4, 6⟩) :=
  ⟨by decide, (C11_insert_past_end_is_push_back 2 exHeap exVec 5 (.val 4) (by decide)).1,
    by decide⟩

/-- C12: copy assignment and move assignment of a vector to itself return the
heap and the fields unchanged: size, capacity and every slot are as before,
and no block is released. -/
theorem C12_self_assignment (h : Heap T) (addr : Nat) (a : vector) :
    vector.assign_copy h addr addr a a = .ok (h, a) ∧
    vector.assign_move h addr addr a a = .ok (h, a, a) ∧
    (∀ r, vector.assign_copy h addr addr a a = .ok r →
      r.2.size = a.size ∧ r.2.capacity = a.capacity ∧ r.2.elems r.1 = a.elems h ∧
        blockAt r.1 a.mData = blockAt h a.mData) ∧
    (∀ r, vector.assign_move h addr addr a a = .ok r →
      r.2.1.size = a.size ∧ r.2.1.capacity = a.capacity ∧ r.2.1.elems r.1 = a.elems h ∧
        blockAt r.1 a.mData = blockAt h a.mData ∧ r.2.2 = a) := by
  have e1 : vector.assign_copy h addr addr a a = .ok (h, a) := by
    simp [vector.assign_copy]
  have e2 : vector.assign_move h addr addr a a = .ok (h, a, a) := by
    simp [vector.assign_move]
  refine ⟨e1, e2, ?_, ?_⟩
  · intro r hr
    rw [e1] at hr
    obtain rfl := Res.ok.inj hr
    exact ⟨rfl, rfl, rfl, rfl⟩
  · intro r hr
    rw [e2] at hr
    obtain rfl := Res.ok.inj hr
    exact ⟨rfl, rfl, rfl, rfl, rfl⟩

/-- C13 as stated fails: in the reference scenario (`{1, 2, 3}` then
`push_back(4)`) the capacity after the call is not a power of two, whatever
the fuel. -/
theorem C13_counterexample :
    ¬ ∃ (fuel : Nat) (h1 : Heap Nat) (o1 : vector) (h2 : Heap Nat) (o2 : vector),
      vector.ctor_init_list ([] : Heap Nat) [1, 2, 3] = .ok (h1, o1) ∧
        o1.push_back fuel h1 (.val 4) = .ok (h2, o2) ∧ ∃ k, o2.capacity = 2 ^ k := by
  rintro ⟨fuel, h1, o1, h2, o2, hc, hp, k, hk⟩
  have hc0 : vector.ctor_init_list ([] : Heap Nat) [1, 2, 3] = .ok (exHeap, exVec) := by
    decide
  rw [hc0] at hc
  simp only [Res.ok.injEq, Prod.mk.injEq] at hc
  obtain ⟨rfl, rfl⟩ := hc
  have hp0 : exVec.push_back 2 exHeap (.val 4) =
      .ok ([⟨[some 1, some 2, some 3], false⟩,
        ⟨[some 1, some 2, some 3, some 4, none, none], true⟩], ⟨1, 4, 6⟩) := by decide
  have e1 := push_back_mono_le (Nat.le_max_left fuel 2) hp
  have e2 := push_back_mono_le (Nat.le_max_right fuel 2) hp0
  rw [e1] at e2
  simp only [Res.ok.injEq, Prod.mk.injEq] at e2
  obtain ⟨-, rfl⟩ := e2
  simp only [vector.capacity] at hk
  have hk3 : k < 3 := by
    by_contra hge
    have : 2 ^ 3 ≤ 2 ^ k := Nat.pow_le_pow_right (by norm_num) (by omega)
    omega
  interval_cases k <;> omega

/-- C13 (amended): in the reference scenario, a vector built from the literal
list `{1, 2, 3}` followed by `push_back(4)` has `size() == 4`, the values
`[1, 2, 3, 4]` and `capacity() == 6`: the list size doubled, `≥ 4`. -/
theorem C13_reference_scenario (h : Heap Nat) (fuel : Nat) (hfuel : 2 ≤ fuel) :
    ∃ h1 o1 h2 o2, vector.ctor_init_list h [1, 2, 3] = .ok (h1, o1) ∧
      o1.push_back fuel h1 (.val 4) = .ok (h2, o2) ∧ o2.size = 4 ∧
      Holds h2 o2 [1, 2, 3, 4] ∧ o2.capacity = 6 ∧ 4 ≤ o2.capacity := by
  obtain ⟨h1, hc, hh1, -, -⟩ := ctor_init_list_spec h [1, 2, 3] (by simp [SIZE_MOD])
  obtain ⟨h2, o2, hp, hh2, hs, hcap, -⟩ :=
    push_back_spec 4 hh1 (by simp) (by simp [SIZE_MOD]) hfuel
  simp only [List.length_cons, List.length_nil, Nat.lt_irrefl, if_false] at hs hcap
  refine ⟨h1, _, h2, o2, hc, hp, hs, hh2, hcap, ?_⟩
  rw [vector.capacity, hcap]
  omega

/-- C13 on the empty heap with fuel 2. -/
theorem C13_reference_scenario_witness :
    (2 : Nat) ≤ 2 ∧ ∃ h1 o1 h2 o2,
      vector.ctor_init_list ([] : Heap Nat) [1, 2, 3] = .ok (h1, o1) ∧
        o1.push_back 2 h1 (.val 4) = .ok (h2, o2) ∧ o2.size = 4 ∧
        Holds h2 o2 [1, 2, 3, 4] ∧ o2.capacity = 6 ∧ 4 ≤ o2.capacity :=
  ⟨by decide, C13_reference_scenario [] 2 (by decide)⟩

/-- C14: on a vector whose size is a `size_type` value, `pop_back()` with
`size() > 0` lowers the size by exactly 1 and leaves the capacity, the storage
and the values at the remaining indices as they were; with `size() == 0` it
changes nothing (the size stays 0 and does not wrap). -/
theorem C14_pop_back (h : Heap T) (o : vector) (fuel : Nat) (hsz : o.size < SIZE_MOD) :
    (0 < o.size → o.pop_back.size = o.size - 1 ∧ o.pop_back.size + 1 = o.size) ∧
    (o.size = 0 → o.pop_back = o ∧ o.pop_back.size = 0) ∧
    o.pop_back.capacity = o.capacity ∧ o.pop_back.mData = o.mData ∧
    Mutation.pop_back.apply fuel h o = .ok (h, o.pop_back) ∧
    (∀ i, i < o.size - 1 → o.pop_back.index h i = o.index h i) ∧
    (∀ es, Holds h o es → Holds h o.pop_back (es.take (o.size - 1))) := by
  have hM : o.mLength < SIZE_MOD := hsz
  have hfields : o.pop_back.mCapacity = o.mCapacity ∧ o.pop_back.mData = o.mData := by
    by_cases hpos : 0 < o.mLength
    · rw [pop_back_pos hpos hM]
      exact ⟨rfl, rfl⟩
    · rw [pop_back_zero (by omega)]
      exact ⟨rfl, rfl⟩
  refine ⟨?_, ?_, hfields.1, hfields.2, rfl, ?_, fun es hh => pop_back_holds hh⟩
  · intro hpos
    have hpos2 : 0 < o.mLength := hpos
    rw [pop_back_pos hpos2 hM]
    show o.mLength - 1 = o.mLength - 1 ∧ o.mLength - 1 + 1 = o.mLength
    omega
  · intro hz
    have hz2 : o.mLength = 0 := hz
    rw [pop_back_zero hz2]
    exact ⟨rfl, hz⟩
  · intro i _
    show Heap.read h o.pop_back.mData i = Heap.read h o.mData i
    rw [hfields.2]

/-- C14 at `v {1, 2, 3}`: after `pop_back()` the vector holds `[1, 2]` with
capacity 3; on the cleared vector `pop_back()` changes nothing. -/
theorem C14_pop_back_witness :
    exVec.size < SIZE_MOD ∧ exVec.pop_back = ⟨0, 2, 3⟩ ∧ Holds exHeap exVec [1, 2, 3] ∧
      Holds exHeap exVec.pop_back [1, 2] ∧ exVec.clear.pop_back = exVec.clear := by
  have hc := C14_pop_back exHeap exVec 0 (by decide)
  exact ⟨by decide, by decide, by decide, hc.2.2.2.2.2.2 [1, 2, 3] (by decide), by decide⟩

/-- C15: `clear()` leaves `size() == 0` and `empty() == true`; the capacity,
the storage address and the heap (hence every slot of the storage block) are
unchanged. -/
theorem C15_clear (h : Heap T) (o : vector) (fuel : Nat) :
    o.clear.size = 0 ∧ o.clear.empty = true ∧ o.clear.capacity = o.capacity ∧
      o.clear.mData = o.mData ∧ Mutation.clear.apply fuel h o = .ok (h, o.clear) ∧
      blockAt h o.clear.mData = blockAt h o.mData :=
  ⟨rfl, rfl, rfl, rfl, rfl, rfl⟩

/-- C16: for a count `n` of type `size_type`, `vector(n, v)` has
`size() == capacity() == n` and the value `v` at every index `i < n`; for a
literal list `l` (its length a `size_type` value), `vector(l)` has
`size() == capacity() == |l|` and the `i`-th value of `l` at index `i`. -/
theorem C16_filling_constructors (h : Heap T) (n : Nat) (v : T) (l : List T)
    (hn : n < SIZE_MOD) (hl : l.length < SIZE_MOD) :
    (∃ h1 o, vector.ctor_count h n v = .ok (h1, o) ∧ o.size = n ∧ o.capacity = n ∧
      Holds h1 o (List.replicate n v) ∧ ∀ i, i < n → o.index h1 i = .ok (some v)) ∧
    (∃ h1 o, vector.ctor_init_list h l = .ok (h1, o) ∧ o.size = l.length ∧
      o.capacity = l.length ∧ Holds h1 o l ∧
      ∀ i (hi : i < l.length), o.index h1 i = .ok (some (l.get ⟨i, hi⟩))) := by
  constructor
  · obtain ⟨h1, hr, hh, -, -⟩ := ctor_count_spec h n v hn
    refine ⟨h1, _, hr, rfl, rfl, hh, ?_⟩
    intro i hi
    have := holds_index hh (i := i) (by simpa using hi)
    simpa using this
  · obtain ⟨h1, hr, hh, -, -⟩ := ctor_init_list_spec h l hl
    exact ⟨h1, _, hr, rfl, rfl, hh, fun i hi => holds_index hh hi⟩

/-- C16 at `vector(3, 7)`, `vector(0, 7)` and `vector({1, 2, 3})`. -/
theorem C16_filling_constructors_witness :
    (3 : Nat) < SIZE_MOD ∧ [1, 2, 3].length < SIZE_MOD ∧
      vector.ctor_count ([] : Heap Nat) 3 7 =
        .ok ([⟨[some 7, some 7, some 7], true⟩], ⟨0, 3, 3⟩) ∧
      vector.ctor_count ([] : Heap Nat) 0 7 = .ok ([⟨[], true⟩], ⟨0, 0, 0⟩) ∧
      vector.ctor_init_list ([] : Heap Nat) [1, 2, 3] = .ok (exHeap, exVec) ∧
      ∃ h1 o, vector.ctor_count ([] : Heap Nat) 3 7 = .ok (h1, o) ∧ o.size = 3 ∧
        o.capacity = 3 ∧ Holds h1 o [7, 7, 7] := by
  obtain ⟨⟨h1, o, hr, hs, hc, hh, -⟩, -⟩ :=
    C16_filling_constructors ([] : Heap Nat) 3 7 [1, 2, 3] (by decide) (by decide)
  exact ⟨by decide, by decide, by decide, by decide, by decide, h1, o, hr, hs, hc, hh⟩

/-- C17 (defect in `insert`, the one of C1): on a well-formed non-empty vector
`insert(0, v)` leaves the storage block during its shift, whatever `v` is bound
to: after the slots `size()` down to 1 it runs the loop body at `i = 0` and
reads `mData[i - 1]`, index `2 ^ 32 - 1`, which no block contains. -/
theorem C17_insert_front_reads_out_of_bounds (h : Heap T) (o : vector) (v : Ref T)
    (fuel : Nat)
    (hwf : WF h o) (hpos : 0 < o.size) (hc2 : 2 * o.capacity < SIZE_MOD)
    (hfuel : o.size + 3 ≤ fuel) : o.insert fuel h 0 v = .fault .outOfBounds :=
  insert_zero_oob v hwf hpos hc2 hfuel

/-- C17 at `v {1, 2, 3}; v.reserve(4); v.insert(0, 7)` (room for one more
value) and at `v {1, 2, 3}; v.insert(0, 7)` (full). -/
theorem C17_insert_front_witness :
    WF exHeap exVec ∧ 0 < exVec.size ∧
      exVec.insert 6 exHeap 0 (.val 7) = .fault .outOfBounds ∧
      vector.insert 6 ([⟨[some 1, some 2, some 3, none], true⟩] : Heap Nat) ⟨0, 3, 4⟩ 0
        (.val 7) = .fault .outOfBounds :=
  ⟨by decide, by decide,
    C17_insert_front_reads_out_of_bounds exHeap exVec (.val 7) 6 (by decide) (by decide)
      (by decide) (by decide), by decide⟩

/-- C18 as stated fails: the full vector of `2 ^ 31` values has a
representable capacity `c = 2 ^ 31 ≥ 1`, and its growth step computes
`mCapacity * 2 = 0` in `size_type`, not `2 * c`; `reserve(0)` changes nothing
and `push_back` never returns. -/
theorem C18_counterexample :
    WF fullHeap fullVec ∧ fullVec.size = fullVec.capacity ∧ 1 ≤ fullVec.capacity ∧
      fullVec.capacity < SIZE_MOD ∧ fullVec.mCapacity * 2 % SIZE_MOD = 0 ∧
      fullVec.mCapacity * 2 % SIZE_MOD ≠ 2 * fullVec.capacity ∧
      fullVec.reserve fullHeap (fullVec.mCapacity * 2 % SIZE_MOD) = .ok (fullHeap, fullVec) ∧
      ∀ fuel (x : Ref Nat) r, fullVec.push_back fuel fullHeap x ≠ .ok r := by
  have hb : blockAt fullHeap fullVec.mData = ⟨List.replicate (2 ^ 31) (some 0), true⟩ := rfl
  have hw : fullVec.mCapacity * 2 % SIZE_MOD = 0 := by
    norm_num [fullVec, SIZE_MOD]
  refine ⟨⟨?_, ?_, le_refl _, ?_⟩, rfl, ?_, ?_, hw, ?_, ?_, ?_⟩
  · rw [hb]
  · rw [hb]
    exact List.length_replicate _ _
  · norm_num [fullVec, SIZE_MOD]
  · norm_num [fullVec, vector.capacity]
  · norm_num [fullVec, vector.capacity, SIZE_MOD]
  · rw [hw]
    norm_num [fullVec, vector.capacity]
  · exact reserve_noop _ _ (by rw [hw]; exact Nat.zero_le _)
  · intro fuel x r hr
    rw [push_back_stuck fuel fullHeap fullVec x (Nat.lt_irrefl _)
      (by rw [hw]; exact Nat.zero_le _)] at hr
    exact absurd hr (by simp)

/-- C18 (amended): with `size_type` a 32-bit unsigned int, for every full vector
(`size() == capacity() == c`) with `1 ≤ c < 2 ^ 31`, the growth step computes
`mCapacity * 2 = 2 * c` without wrapping, `reserve` grows the storage to
`2 * c` slots, and `push_back(v)` and `insert(p, v)` (for `p ≥ 1`) return with
`capacity() == 2 * c > c`. -/
theorem C18_growth_request (h : Heap T) (o : vector) (es : List T) (v : T) (fuel : Nat)
    (hh : Holds h o es) (hfull : o.size = o.capacity) (hc1 : 1 ≤ o.capacity)
    (hc2 : o.capacity < 2 ^ 31) (hfuel : o.size + 3 ≤ fuel) :
    o.mCapacity * 2 % SIZE_MOD = 2 * o.capacity ∧ o.capacity < o.mCapacity * 2 % SIZE_MOD ∧
    (∃ h1 o1, o.reserve h (o.mCapacity * 2 % SIZE_MOD) = .ok (h1, o1) ∧
      o1.capacity = 2 * o.capacity ∧ WF h1 o1) ∧
    (∃ h1 o1, o.push_back fuel h (.val v) = .ok (h1, o1) ∧ o1.capacity = 2 * o.capacity ∧
      o.capacity < o1.capacity) ∧
    (∀ p, 1 ≤ p → ∃ h1 o1, o.insert fuel h p (.val v) = .ok (h1, o1) ∧
      o1.capacity = 2 * o.capacity ∧ o.capacity < o1.capacity) := by
  have hfull2 : o.mLength = o.mCapacity := hfull
  have hc1b : 1 ≤ o.mCapacity := hc1
  have hc2b : o.mCapacity < 2 ^ 31 := hc2
  have hfuelb : o.mLength + 3 ≤ fuel := hfuel
  have hrep : 2 * o.mCapacity < SIZE_MOD := by simp only [SIZE_MOD]; omega
  have hmod : o.mCapacity * 2 % SIZE_MOD = 2 * o.mCapacity := by
    rw [Nat.mod_eq_of_lt (by omega)]; omega
  have hnlt : ¬ o.mLength < o.mCapacity := by omega
  have hpb : ∀ g, 2 ≤ g → ∃ h1 o1, o.push_back g h (.val v) = .ok (h1, o1) ∧
      o1.capacity = 2 * o.capacity ∧ o.capacity < o1.capacity := by
    intro g hg
    obtain ⟨h1, o1, hr, -, -, hcap, -⟩ := push_back_spec v hh hc1b hrep hg
    simp only [hnlt, if_false] at hcap
    exact ⟨h1, o1, hr, hcap, by simp only [vector.capacity, hcap]; omega⟩
  refine ⟨hmod, ?_, ?_, hpb fuel (by omega), ?_⟩
  · rw [hmod]; simp only [vector.capacity]; omega
  · obtain ⟨h1, hr, hwf, -⟩ := reserve_grow_wf (c := 2 * o.mCapacity) hh.1 (by omega) hrep
    rw [hmod]
    exact ⟨h1, _, hr, rfl, hwf⟩
  · intro p hp1
    by_cases hpn : p < o.mLength
    · obtain ⟨h1, o1, hr, -, -, hcap, -⟩ := insert_spec p v hh hc1b hrep hp1 hpn hfuelb
      simp only [hnlt, if_false] at hcap
      exact ⟨h1, o1, hr, hcap, by simp only [vector.capacity, hcap]; omega⟩
    · obtain ⟨f, rfl⟩ : ∃ f, fuel = f + 1 := ⟨fuel - 1, by omega⟩
      obtain ⟨h1, o1, hr, hcap, hlt⟩ := hpb f (by omega)
      refine ⟨h1, o1, ?_, hcap, hlt⟩
      rw [vector.insert]
      have hge : p ≥ o.mLength := by omega
      simp only [hge, if_true]
      exact hr

/-- C18 at the full vector `v {1, 2, 3}`: the growth step asks for 6 slots. -/
theorem C18_growth_request_witness :
    Holds exHeap exVec [1, 2, 3] ∧ exVec.size = exVec.capacity ∧
      exVec.mCapacity * 2 % SIZE_MOD = 6 ∧
      (∃ h1 o1, exVec.push_back 6 exHeap (.val 4) = .ok (h1, o1) ∧ o1.capacity = 6) ∧
      (∃ h1 o1, exVec.insert 6 exHeap 1 (.val 4) = .ok (h1, o1) ∧ o1.capacity = 6) := by
  obtain ⟨hm, -, -, ⟨h1, o1, hr, hc, -⟩, hins⟩ :=
    C18_growth_request exHeap exVec [1, 2, 3] 4 6 (by decide) (by decide) (by decide)
      (by decide) (by decide)
  obtain ⟨h2, o2, hr2, hc2, -⟩ := hins 1 (by decide)
  exact ⟨by decide, by decide, hm, ⟨h1, o1, hr, hc⟩, ⟨h2, o2, hr2, hc2⟩⟩

/-- C19 (defect in `insert`): the argument is read only after the shift loop,
and after `reserve`.  With an element `v[i]` of the vector itself as argument,
`p ≤ i < size()`: when there is room, `insert(p, v[i])` inserts the old value
of `v[i - 1]`, which the shift has moved into slot `i`; on a full vector it
reads the argument from the block that `reserve` has released. -/
theorem C19_insert_own_element (h : Heap T) (o : vector) (es : List T) (p i fuel : Nat)
    (hh : Holds h o es) (hc2 : 2 * o.capacity < SIZE_MOD) (hp1 : 1 ≤ p) (hpi : p ≤ i)
    (hin : i < o.size) (hfuel : o.size + 3 ≤ fuel) :
    (o.size < o.capacity → ∀ x, es[i - 1]? = some x →
      ∃ h1 o1, o.insert fuel h p (.slot o.mData i) = .ok (h1, o1) ∧
        Holds h1 o1 (es.take p ++ x :: es.drop p)) ∧
    (o.size = o.capacity → o.insert fuel h p (.slot o.mData i) = .fault .useAfterFree) := by
  have hinb : i < o.mLength := hin
  constructor
  · intro hlt x hx
    exact insert_aliased_room p i x hh hp1 hpi hinb hlt hx hfuel
  · intro hfull
    exact insert_dangling p i hh.1 hfull hc2 hp1 (by omega) hfuel

/-- C19 at `v {1, 2, 3}; v.reserve(4); v.insert(1, v[2])`: the result is
`[1, 2, 2, 3]`, not `[1, 3, 2, 3]`; and at `v {1, 2, 3}; v.insert(1, v[2])`
(full): the argument is read from the released block. -/
theorem C19_insert_own_element_witness :
    exVec.reserve exHeap 4 = .ok (exHeapRoom, exVecRoom) ∧
      Holds exHeapRoom exVecRoom [1, 2, 3] ∧ Holds exHeap exVec [1, 2, 3] ∧
      (∃ h1 o1, exVecRoom.insert 6 exHeapRoom 1 (.slot exVecRoom.mData 2) = .ok (h1, o1) ∧
        Holds h1 o1 [1, 2, 2, 3]) ∧
      exVecRoom.insert 6 exHeapRoom 1 (.slot 1 2) =
        .ok ([⟨[some 1, some 2, some 3], false⟩, ⟨[some 1, some 2, some 2, some 3], true⟩],
          ⟨1, 4, 4⟩) ∧
      exVec.insert 6 exHeap 1 (.slot exVec.mData 2) = .fault .useAfterFree := by
  have hroom := (C19_insert_own_element exHeapRoom exVecRoom [1, 2, 3] 1 2 6 (by decide)
    (by decide) (by decide) (by decide) (by decide) (by decide)).1 (by decide) 2 (by decide)
  have hfull := (C19_insert_own_element exHeap exVec [1, 2, 3] 1 2 6 (by decide)
    (by decide) (by decide) (by decide) (by decide) (by decide)).2 (by decide)
  exact ⟨by decide, by decide, by decide, hroom, by decide, hfull⟩

end gatools
